import Mathlib

/-!
# Verification of the reth discv4 wire codec (`crates/net/discv4/src/proto.rs`)

Shallow embedding of the discv4 packet envelope and its RLP record codecs.
Byte buffers are `List Nat` (each element intended `< 256`), machine integers
are `Nat` with explicit bounds, and fallible decoding returns `Except`.

The RLP primitive layer (`reth_rlp`: headers, integer/byte-string/list
codecs, the derive-generated struct decoders) is code of the repository that
is not part of the analysed fragment; it is modelled from the specification's
§4.1 description of canonical RLP.  The secp256k1 and keccak-256 libraries
are external dependencies and are abstracted by the `Secp` interface below.
-/

deriving instance DecidableEq for Except

namespace Discv4

/-! ## Big-endian minimal integer bytes -/

/-- Fuel-driven helper for `beBytes`; the fuel only makes the recursion
structural and is irrelevant as long as it is at least the argument. -/
def beBytesFuel : Nat → Nat → List Nat
  | 0, _ => []
  | fuel + 1, n => if n = 0 then [] else beBytesFuel fuel (n / 256) ++ [n % 256]

/-- Minimal big-endian byte representation of a natural number
(empty for zero), as used by RLP integer encoding. -/
def beBytes (n : Nat) : List Nat :=
  beBytesFuel n n

theorem beBytesFuel_eq (f1 : Nat) : ∀ f2 n, n ≤ f1 → n ≤ f2 →
    beBytesFuel f1 n = beBytesFuel f2 n := by
  induction f1 with
  | zero =>
    intro f2 n h1 h2
    have : n = 0 := by omega
    subst this
    cases f2 <;> simp [beBytesFuel]
  | succ f ih =>
    intro f2 n h1 h2
    cases f2 with
    | zero =>
      have : n = 0 := by omega
      subst this
      simp [beBytesFuel]
    | succ f2h =>
      simp only [beBytesFuel]
      by_cases hn : n = 0
      · simp [hn]
      · simp only [hn, if_false]
        have hlt : n / 256 < n := Nat.div_lt_self (Nat.pos_of_ne_zero hn) (by omega)
        rw [ih f2h (n / 256) (by omega) (by omega)]

/-- The recursive unfolding of `beBytes`. -/
theorem beBytes_unfold (n : Nat) : beBytes n = if n = 0 then [] else beBytes (n / 256) ++ [n % 256] := by
  unfold beBytes
  cases n with
  | zero => simp [beBytesFuel]
  | succ m =>
    simp only [beBytesFuel, Nat.succ_ne_zero, if_false]
    by_cases hz : (m + 1) / 256 = 0
    · simp [hz, beBytesFuel]
      rw [beBytesFuel_eq m 0 0 (by omega) (by omega)]
      simp [beBytesFuel]
    · have hlt : (m + 1) / 256 < m + 1 := Nat.div_lt_self (by omega) (by omega)
      rw [beBytesFuel_eq m ((m + 1) / 256) ((m + 1) / 256) (by omega) (by omega)]

/-- Big-endian value of a byte list. -/
def beVal (l : List Nat) : Nat :=
  l.foldl (fun a b => a * 256 + b) 0

theorem beVal_nil : beVal [] = 0 := rfl

theorem beVal_append_singleton (l : List Nat) (b : Nat) :
    beVal (l ++ [b]) = beVal l * 256 + b := by
  simp [beVal, List.foldl_append]

theorem beVal_beBytes (n : Nat) : beVal (beBytes n) = n := by
  induction n using Nat.strong_induction_on with
  | _ n ih =>
    rw [beBytes_unfold]
    by_cases h : n = 0
    · simp [h, beVal]
    · simp only [h, if_false]
      rw [beVal_append_singleton, ih (n / 256) (Nat.div_lt_self (Nat.pos_of_ne_zero h) (by omega))]
      omega

theorem beBytes_zero : beBytes 0 = [] := rfl

theorem beBytes_bytes_lt (n : Nat) : ∀ b ∈ beBytes n, b < 256 := by
  induction n using Nat.strong_induction_on with
  | _ n ih =>
    rw [beBytes_unfold]
    by_cases h : n = 0
    · simp [h]
    · simp only [h, if_false]
      intro b hb
      rcases List.mem_append.mp hb with h1 | h2
      · exact ih (n / 256) (Nat.div_lt_self (Nat.pos_of_ne_zero h) (by omega)) b h1
      · simp at h2; omega

theorem beBytes_ne_nil (n : Nat) (h : n ≠ 0) : beBytes n ≠ [] := by
  rw [beBytes_unfold]; simp [h]

theorem beBytes_head_ne_zero (n : Nat) : ∀ c l, beBytes n = c :: l → c ≠ 0 := by
  induction n using Nat.strong_induction_on with
  | _ n ih =>
    intro c l h
    rw [beBytes_unfold] at h
    by_cases h0 : n = 0
    · simp [h0] at h
    · simp only [h0, if_false] at h
      by_cases hq : n / 256 = 0
      · rw [hq, beBytes_zero] at h
        simp at h
        omega
      · rcases hl : beBytes (n / 256) with _ | ⟨c', l'⟩
        · exact absurd hl (beBytes_ne_nil _ hq)
        · rw [hl] at h
          simp at h
          exact h.1 ▸ ih (n / 256) (Nat.div_lt_self (Nat.pos_of_ne_zero h0) (by omega)) c' l' hl

theorem beBytes_length_le (n k : Nat) (h : n < 256 ^ k) : (beBytes n).length ≤ k := by
  induction k generalizing n with
  | zero =>
    simp at h
    simp [h, beBytes_zero]
  | succ k ih =>
    rw [beBytes_unfold]
    by_cases h0 : n = 0
    · simp [h0]
    · simp only [h0, if_false, List.length_append, List.length_singleton]
      have : n / 256 < 256 ^ k := by
        rw [Nat.div_lt_iff_lt_mul (by omega)]
        calc n < 256 ^ (k + 1) := h
        _ = 256 ^ k * 256 := by ring
      have := ih (n / 256) this
      omega

theorem beBytes_length_pos (n : Nat) (h : n ≠ 0) : 1 ≤ (beBytes n).length := by
  rcases hl : beBytes n with _ | ⟨c, l⟩
  · exact absurd hl (beBytes_ne_nil _ h)
  · simp

theorem beBytes_length_eq_one (n : Nat) (h1 : n ≠ 0) (h2 : n < 256) : beBytes n = [n] := by
  rw [beBytes_unfold]
  simp only [h1, if_false]
  rw [Nat.div_eq_of_lt h2, beBytes_zero, Nat.mod_eq_of_lt h2]
  simp

/-! ## RLP encoding primitives (modelled from the spec, §4.1) -/

/-- Modelled from the spec: RLP length prefix for a payload of length `len`
with base byte `base` (0x80 for strings, 0xc0 for lists): short form
`base + len` for `len < 56`, else `base + 55 + |be(len)|` followed by the
big-endian length bytes. -/
def lengthHeader (base len : Nat) : List Nat :=
  if len < 56 then [base + len] else (base + 55 + (beBytes len).length) :: beBytes len

/-- Modelled from the spec: RLP encoding of a byte string. A single byte
below 0x80 encodes as itself; otherwise a length prefix precedes the bytes. -/
def rlpString (s : List Nat) : List Nat :=
  match s with
  | [b] => if b < 0x80 then [b] else [0x81, b]
  | _ => lengthHeader 0x80 s.length ++ s

/-- Modelled from the spec: RLP encoding of an unsigned integer —
its minimal big-endian bytes as a string (zero encodes as the empty string). -/
def rlpNat (n : Nat) : List Nat :=
  rlpString (beBytes n)

/-- Modelled from the spec: RLP list framing of an already-concatenated payload. -/
def rlpList (payload : List Nat) : List Nat :=
  lengthHeader 0xc0 payload.length ++ payload

theorem lengthHeader_length_pos (base len : Nat) : 1 ≤ (lengthHeader base len).length := by
  unfold lengthHeader
  split <;> simp

theorem lengthHeader_length_le (base len k : Nat) (h : len < 256 ^ k) :
    (lengthHeader base len).length ≤ 1 + k := by
  unfold lengthHeader
  split
  · simp
  · have := beBytes_length_le len k h
    simp
    omega

theorem lengthHeader_length_ge_two (base len : Nat) (h : 56 ≤ len) :
    2 ≤ (lengthHeader base len).length := by
  unfold lengthHeader
  have : ¬ len < 56 := by omega
  simp only [this, if_false, List.length_cons]
  have := beBytes_length_pos len (by omega)
  omega

theorem rlpString_ne_nil (s : List Nat) : rlpString s ≠ [] := by
  match s with
  | [] => simp [rlpString, lengthHeader]
  | [b] =>
    simp only [rlpString]
    split <;> simp
  | a :: b :: t =>
    simp [rlpString]

theorem rlpString_length_pos (s : List Nat) : 1 ≤ (rlpString s).length := by
  rcases h : rlpString s with _ | _
  · exact absurd h (rlpString_ne_nil s)
  · simp

theorem rlpNat_length_pos (n : Nat) : 1 ≤ (rlpNat n).length :=
  rlpString_length_pos _

/-! ## RLP decoding primitives (modelled from the spec, §4.1) -/

/-- Modelled from the spec: `reth_rlp::DecodeError`, the canonical RLP error
set plus the `ListLengthMismatch`/`UnexpectedLength` variants surfaced by the
derived struct decoders. -/
inductive DecodeError where
  | inputTooShort
  | overflow
  | leadingZero
  | nonCanonicalSize
  | nonCanonicalSingleByte
  | unexpectedString
  | unexpectedList
  | unexpectedLength
  | listLengthMismatch (expected got : Nat)
  | custom (s : String)
deriving DecidableEq, Repr

/-- Modelled from the spec: `reth_rlp::Header` — the kind flag and declared
payload length of an RLP item. -/
structure Header where
  list : Bool
  payload_length : Nat
deriving DecidableEq, Repr

/-- Final check of `Header::decode`: the declared payload must fit in the
remaining buffer. -/
def headerCheckLen (h : Header) (buf : List Nat) : Except DecodeError (Header × List Nat) :=
  if buf.length < h.payload_length then .error .inputTooShort else .ok (h, buf)

theorem ok_pair_inj {α β : Type} {x x' : α} {y y' : β}
    (e : (Except.ok (x, y) : Except DecodeError (α × β)) = .ok (x', y')) :
    x = x' ∧ y = y' := by
  injection e with e
  exact ⟨congrArg Prod.fst e, congrArg Prod.snd e⟩

/-- Long-form branch of `Header::decode`: read `lol` big-endian length bytes,
rejecting a leading zero and a non-canonically long encoding of a short length. -/
def headerLongLen (isList : Bool) (lol : Nat) (rest : List Nat) :
    Except DecodeError (Header × List Nat) :=
  if rest.length < lol then .error .inputTooShort
  else if rest.headD 1 = 0 then .error .leadingZero
  else if beVal (rest.take lol) < 56 then .error .nonCanonicalSize
  else headerCheckLen ⟨isList, beVal (rest.take lol)⟩ (rest.drop lol)

/-- Modelled from the spec: `reth_rlp::Header::decode`. A byte below 0x80 is
its own one-byte payload (not consumed); short and long string/list prefixes
follow the canonical RLP scheme, with the canonicality and buffer-length
checks of the source library. -/
def Header.decode (buf : List Nat) : Except DecodeError (Header × List Nat) :=
  match buf with
  | [] => .error .inputTooShort
  | b :: rest =>
    if b < 0x80 then headerCheckLen ⟨false, 1⟩ (b :: rest)
    else if b < 0xB8 then
      if b - 0x80 = 1 then
        match rest with
        | [] => .error .inputTooShort
        | c :: _ =>
          if c < 0x80 then .error .nonCanonicalSingleByte
          else headerCheckLen ⟨false, 1⟩ rest
      else headerCheckLen ⟨false, b - 0x80⟩ rest
    else if b < 0xC0 then headerLongLen false (b - 0xB7) rest
    else if b < 0xF8 then headerCheckLen ⟨true, b - 0xC0⟩ rest
    else headerLongLen true (b - 0xF7) rest

/-- Modelled from the spec: the byte-string decoder (`Bytes`/`Vec<u8>`):
a non-list header followed by the payload bytes. -/
def decodeBytesStr (buf : List Nat) : Except DecodeError (List Nat × List Nat) := do
  let (h, b) ← Header.decode buf
  if h.list then throw .unexpectedList
  else pure (b.take h.payload_length, b.drop h.payload_length)

/-- Modelled from the spec: the unsigned-integer decoder (`uN::decode`) for an
integer of at most `m` bytes: non-list header, payload no longer than `m`,
no leading zero byte, big-endian value. -/
def decodeNatMax (m : Nat) (buf : List Nat) : Except DecodeError (Nat × List Nat) := do
  let (h, b) ← Header.decode buf
  if h.list then throw .unexpectedList
  else if m < h.payload_length then throw .overflow
  else if (b.take h.payload_length).headD 1 = 0 then throw .leadingZero
  else pure (beVal (b.take h.payload_length), b.drop h.payload_length)

/-- Modelled from the spec: the fixed-size byte-array decoder (`H256`,
`PeerId`): non-list header whose payload length must equal `n`. -/
def decodeFixed (n : Nat) (buf : List Nat) : Except DecodeError (List Nat × List Nat) := do
  let (h, b) ← Header.decode buf
  if h.list then throw .unexpectedList
  else if h.payload_length ≠ n then throw .unexpectedLength
  else pure (b.take n, b.drop n)

/-! ## Header decode round-trip lemmas -/

theorem beBytes_lt_pow (n : Nat) : n < 256 ^ (beBytes n).length := by
  induction n using Nat.strong_induction_on with
  | _ n ih =>
    rw [beBytes_unfold]
    by_cases h : n = 0
    · simp [h]
    · simp only [h, if_false, List.length_append, List.length_singleton]
      have hq := ih (n / 256) (Nat.div_lt_self (Nat.pos_of_ne_zero h) (by omega))
      have hdm := Nat.div_add_mod n 256
      have hm : n % 256 < 256 := Nat.mod_lt _ (by omega)
      have hp : 256 ^ ((beBytes (n / 256)).length + 1) =
          256 ^ (beBytes (n / 256)).length * 256 := by ring
      set P := 256 ^ (beBytes (n / 256)).length
      omega

theorem beBytes_length_ge_two (n : Nat) (h : 256 ≤ n) : 2 ≤ (beBytes n).length := by
  by_contra hc
  have h1 : (beBytes n).length ≤ 1 := by omega
  have := beBytes_lt_pow n
  have : n < 256 ^ 1 := lt_of_lt_of_le this (Nat.pow_le_pow_right (by omega) h1)
  simp at this
  omega

theorem Header.decode_single (b : Nat) (t : List Nat) (hb : b < 0x80) :
    Header.decode (b :: t) = .ok (⟨false, 1⟩, b :: t) := by
  have c : ¬ (b :: t).length < 1 := by simp
  simp [Header.decode, hb, headerCheckLen, c]

theorem Header.decode_one_big (b : Nat) (t : List Nat) (hb : 0x80 ≤ b) :
    Header.decode (0x81 :: (b :: t)) = .ok (⟨false, 1⟩, b :: t) := by
  have c1 : ¬ (0x81 : Nat) < 0x80 := by omega
  have c2 : (0x81 : Nat) < 0xB8 := by omega
  have c3 : ¬ b < 0x80 := by omega
  have c4 : ¬ (b :: t).length < 1 := by simp
  simp [Header.decode, c1, c2, c3, c4, headerCheckLen]

theorem Header.decode_string_short (s t : List Nat) (h1 : s.length ≠ 1) (h2 : s.length < 56) :
    Header.decode ((0x80 + s.length) :: (s ++ t)) = .ok (⟨false, s.length⟩, s ++ t) := by
  have c1 : ¬ (0x80 + s.length) < 0x80 := by omega
  have c2 : (0x80 + s.length) < 0xB8 := by omega
  have c4 : ¬ ((s ++ t).length < s.length) := by rw [List.length_append]; omega
  simp [Header.decode, c1, c2, h1, c4, headerCheckLen, Nat.add_sub_cancel_left]

theorem headerLongLen_of_ne_zero (isList : Bool) (lol c : Nat) (l : List Nat) (hc : c ≠ 0)
    (hlen : ¬ (c :: l).length < lol) (hsz : ¬ beVal ((c :: l).take lol) < 56) :
    headerLongLen isList lol (c :: l) =
      headerCheckLen ⟨isList, beVal ((c :: l).take lol)⟩ ((c :: l).drop lol) := by
  simp only [headerLongLen, hlen, if_false, List.headD_cons, hc, hsz]

theorem headerLongLen_append (isList : Bool) (lol : Nat) (r t : List Nat) (h : Header)
    (b : List Nat) (hlol : 1 ≤ lol) (hd : headerLongLen isList lol r = .ok (h, b)) :
    headerLongLen isList lol (r ++ t) = .ok (h, b ++ t) := by
  unfold headerLongLen at hd ⊢
  by_cases c1 : r.length < lol
  · simp [c1] at hd
  · simp only [c1, if_false] at hd
    have c1' : ¬ (r ++ t).length < lol := by rw [List.length_append]; omega
    simp only [c1', if_false]
    match r with
    | [] => simp at c1; omega
    | y :: r' =>
      simp only [List.headD_cons] at hd
      simp only [List.cons_append, List.headD_cons]
      by_cases cy : y = 0
      · simp [cy] at hd
      · simp only [cy, if_false] at hd ⊢
        rw [← List.cons_append]
        have hle : lol ≤ (y :: r').length := by omega
        rw [List.take_append_of_le_length hle, List.drop_append_of_le_length hle]
        by_cases c2 : beVal ((y :: r').take lol) < 56
        · simp [c2] at hd
        · simp only [c2, if_false, headerCheckLen, List.length_append, List.length_drop,
            List.length_cons] at hd ⊢
          by_cases c3 : r'.length + 1 - lol < beVal ((y :: r').take lol)
          · simp only [c3, if_true] at hd
            exact absurd hd (by simp)
          · simp only [c3, if_false] at hd
            obtain ⟨rfl, rfl⟩ := ok_pair_inj hd
            rw [if_neg (by omega)]

theorem Header.decode_long (base : Nat) (isList : Bool) (p t : List Nat)
    (hbase : base = if isList then 0xC0 else 0x80)
    (h1 : 56 ≤ p.length) (h8 : p.length < 256 ^ 8) :
    Header.decode (lengthHeader base p.length ++ (p ++ t)) =
      .ok (⟨isList, p.length⟩, p ++ t) := by
  have hk1 : 1 ≤ (beBytes p.length).length := beBytes_length_pos _ (by omega)
  have hk8 : (beBytes p.length).length ≤ 8 := beBytes_length_le _ _ h8
  have hlh : lengthHeader base p.length =
      (base + 55 + (beBytes p.length).length) :: beBytes p.length := by
    unfold lengthHeader
    simp [Nat.not_lt.mpr h1]
  rcases hbe : beBytes p.length with _ | ⟨c, l⟩
  · rw [hbe] at hk1; simp at hk1
  have hc0 : c ≠ 0 := beBytes_head_ne_zero p.length c l hbe
  rw [hbe] at hlh hk8
  rw [hlh]
  simp only [List.length_cons] at hk8
  have htake : List.take (l.length + 1) (c :: (l ++ (p ++ t))) = c :: l := by
    rw [List.take_succ_cons, List.take_left]
  have hdrop : List.drop (l.length + 1) (c :: (l ++ (p ++ t))) = p ++ t := by
    rw [List.drop_succ_cons, List.drop_left]
  have hbev : beVal (c :: l) = p.length := by rw [← hbe]; exact beVal_beBytes _
  have c6 : ¬ (c :: (l ++ (p ++ t))).length < l.length + 1 := by
    simp
  have c7 : ¬ beVal (List.take (l.length + 1) (c :: (l ++ (p ++ t)))) < 56 := by
    rw [htake, hbev]; omega
  have c8 : ¬ (p ++ t).length < p.length := by rw [List.length_append]; omega
  cases isList with
  | false =>
    simp only [Bool.false_eq_true, if_false] at hbase
    subst hbase
    have c1 : ¬ (0x80 + 55 + (l.length + 1)) < 0x80 := by omega
    have c2 : ¬ (0x80 + 55 + (l.length + 1)) < 0xB8 := by omega
    have c3 : (0x80 + 55 + (l.length + 1)) < 0xC0 := by omega
    have c5 : (0x80 + 55 + (l.length + 1)) - 0xB7 = l.length + 1 := by omega
    simp only [List.cons_append, List.length_cons, Header.decode, c1, if_false, c2, c3,
      if_true, c5]
    rw [headerLongLen_of_ne_zero false (l.length + 1) c (l ++ (p ++ t)) hc0 c6 c7]
    rw [htake, hdrop, hbev, headerCheckLen]
    simp [c8]
  | true =>
    simp only [if_true] at hbase
    subst hbase
    have c1 : ¬ (0xC0 + 55 + (l.length + 1)) < 0x80 := by omega
    have c2 : ¬ (0xC0 + 55 + (l.length + 1)) < 0xB8 := by omega
    have c3 : ¬ (0xC0 + 55 + (l.length + 1)) < 0xC0 := by omega
    have c4 : ¬ (0xC0 + 55 + (l.length + 1)) < 0xF8 := by omega
    have c5 : (0xC0 + 55 + (l.length + 1)) - 0xF7 = l.length + 1 := by omega
    simp only [List.cons_append, List.length_cons, Header.decode, c1, if_false, c2, c3, c4, c5]
    rw [headerLongLen_of_ne_zero true (l.length + 1) c (l ++ (p ++ t)) hc0 c6 c7]
    rw [htake, hdrop, hbev, headerCheckLen]
    simp [c8]

theorem Header.decode_list_short (p t : List Nat) (h : p.length < 56) :
    Header.decode ((0xC0 + p.length) :: (p ++ t)) = .ok (⟨true, p.length⟩, p ++ t) := by
  have c1 : ¬ (0xC0 + p.length) < 0x80 := by omega
  have c2 : ¬ (0xC0 + p.length) < 0xB8 := by omega
  have c3 : ¬ (0xC0 + p.length) < 0xC0 := by omega
  have c4 : (0xC0 + p.length) < 0xF8 := by omega
  have c5 : ¬ ((p ++ t).length < p.length) := by rw [List.length_append]; omega
  simp [Header.decode, c1, c2, c3, c4, c5, headerCheckLen, Nat.add_sub_cancel_left]

/-- Round trip for RLP list framing: decoding the header of
`rlpList payload ++ t` yields a list header of the payload's length. -/
theorem Header.decode_rlpList (p t : List Nat) (h8 : p.length < 256 ^ 8) :
    Header.decode (rlpList p ++ t) = .ok (⟨true, p.length⟩, p ++ t) := by
  by_cases h : p.length < 56
  · have : rlpList p ++ t = (0xC0 + p.length) :: (p ++ t) := by
      simp [rlpList, lengthHeader, h]
    rw [this]
    exact Header.decode_list_short p t h
  · have : rlpList p ++ t = lengthHeader 0xC0 p.length ++ (p ++ t) := by
      simp [rlpList]
    rw [this]
    exact Header.decode_long 0xC0 true p t (by simp) (by omega) h8

/-- Round trip for RLP string headers: decoding the header of
`rlpString s ++ t` yields a non-list header of the string's length. -/
theorem Header.decode_rlpString (s t : List Nat) (h8 : s.length < 256 ^ 8) :
    Header.decode (rlpString s ++ t) = .ok (⟨false, s.length⟩, s ++ t) := by
  match s with
  | [] =>
    have := Header.decode_string_short [] t (by simp) (by simp)
    simpa [rlpString, lengthHeader] using this
  | [b] =>
    by_cases hb : b < 0x80
    · have := Header.decode_single b t hb
      simpa [rlpString, hb] using this
    · have := Header.decode_one_big b t (by omega)
      simpa [rlpString, hb] using this
  | a :: c :: r =>
    have hrw : rlpString (a :: c :: r) ++ t =
        lengthHeader 0x80 (a :: c :: r).length ++ ((a :: c :: r) ++ t) := by
      show (lengthHeader 0x80 (a :: c :: r).length ++ (a :: c :: r)) ++ t = _
      rw [List.append_assoc]
    rw [hrw]
    by_cases hlen : (a :: c :: r).length < 56
    · have hh := Header.decode_string_short (a :: c :: r) t (by simp) hlen
      have hl : lengthHeader 0x80 (a :: c :: r).length = [0x80 + (a :: c :: r).length] := by
        unfold lengthHeader; rw [if_pos hlen]
      rw [hl, List.singleton_append]
      exact hh
    · exact Header.decode_long 0x80 false (a :: c :: r) t (by simp) (by omega) h8

/-- Decoding a header is stable under appending bytes after the item. -/
theorem Header.decode_append (v t : List Nat) (h : Header) (b : List Nat)
    (hd : Header.decode v = .ok (h, b)) :
    Header.decode (v ++ t) = .ok (h, b ++ t) := by
  match v with
  | [] => simp [Header.decode] at hd
  | x :: r =>
    simp only [Header.decode] at hd
    rw [List.cons_append]
    simp only [Header.decode]
    by_cases c1 : x < 0x80
    · simp only [c1, if_true, headerCheckLen] at hd ⊢
      have : ¬ (x :: r).length < 1 := by simp
      simp only [this, if_false] at hd
      have : ¬ (x :: (r ++ t)).length < 1 := by simp
      simp only [this, if_false]
      obtain ⟨rfl, rfl⟩ := ok_pair_inj hd
      simp
    · simp only [c1, if_false] at hd ⊢
      by_cases c2 : x < 0xB8
      · simp only [c2, if_true] at hd ⊢
        by_cases c3 : x - 0x80 = 1
        · simp only [c3, if_true] at hd ⊢
          match r with
          | [] => simp at hd
          | y :: r' =>
            rw [List.cons_append]
            by_cases c4 : y < 0x80
            · simp [c4] at hd
            · simp only [c4, if_false, headerCheckLen] at hd ⊢
              have h5 : ¬ (y :: r').length < 1 := by simp
              simp only [h5, if_false] at hd
              obtain ⟨rfl, rfl⟩ := ok_pair_inj hd
              have h6 : ¬ (y :: (r' ++ t)).length < 1 := by simp
              rw [if_neg h6]
              simp
        · simp only [c3, if_false, headerCheckLen] at hd ⊢
          by_cases c5 : r.length < x - 0x80
          · simp [c5] at hd
          · simp only [c5, if_false] at hd
            obtain ⟨rfl, rfl⟩ := ok_pair_inj hd
            have : ¬ (r ++ t).length < x - 0x80 := by rw [List.length_append]; omega
            rw [if_neg this]
      · simp only [c2, if_false] at hd ⊢
        by_cases c6 : x < 0xC0
        · simp only [c6, if_true] at hd ⊢
          exact headerLongLen_append false (x - 0xB7) r t h b (by omega) hd
        · simp only [c6, if_false] at hd ⊢
          by_cases c7 : x < 0xF8
          · simp only [c7, if_true, headerCheckLen] at hd ⊢
            by_cases c8 : r.length < x - 0xC0
            · simp [c8] at hd
            · simp only [c8, if_false] at hd
              obtain ⟨rfl, rfl⟩ := ok_pair_inj hd
              have : ¬ (r ++ t).length < x - 0xC0 := by rw [List.length_append]; omega
              rw [if_neg this]
          · simp only [c7, if_false] at hd ⊢
            exact headerLongLen_append true (x - 0xF7) r t h b (by omega) hd

/-! ## Primitive decoder round trips -/

theorem pow_256_8_eq : (256 : Nat) ^ 8 = 18446744073709551616 := by norm_num

theorem decodeBytesStr_rt (s t : List Nat) (h8 : s.length < 256 ^ 8) :
    decodeBytesStr (rlpString s ++ t) = .ok (s, t) := by
  have key := Header.decode_rlpString s t h8
  simp [decodeBytesStr, key, Bind.bind, Except.bind, pure, Except.pure,
    List.take_left, List.drop_left]

theorem decodeNatMax_rt (m n : Nat) (t : List Nat) (hn : n < 256 ^ m) (hm : m ≤ 55) :
    decodeNatMax m (rlpNat n ++ t) = .ok (n, t) := by
  have hk : (beBytes n).length ≤ m := beBytes_length_le n m hn
  have h8 : (beBytes n).length < 256 ^ 8 := by
    rw [pow_256_8_eq]; omega
  have key := Header.decode_rlpString (beBytes n) t h8
  have hhead : ((beBytes n ++ t).take (beBytes n).length).headD 1 ≠ 0 := by
    rw [List.take_left]
    rcases hbe : beBytes n with _ | ⟨c, l⟩
    · simp
    · have := beBytes_head_ne_zero n c l hbe
      simpa using this
  have hov : ¬ m < (beBytes n).length := by omega
  simp only [decodeNatMax, rlpNat, key, Bind.bind, Except.bind, hov, if_false,
    hhead, ite_false]
  simp [List.take_left, List.drop_left, beVal_beBytes, pure, Except.pure]

theorem decodeFixed_rt (s t : List Nat) (n : Nat) (hs : s.length = n) (h2 : 2 ≤ n)
    (h8 : n < 256 ^ 8) :
    decodeFixed n (rlpString s ++ t) = .ok (s, t) := by
  subst hs
  have key := Header.decode_rlpString s t h8
  simp [decodeFixed, key, Bind.bind, Except.bind, pure, Except.pure,
    List.take_left, List.drop_left]

/-! ## Data model (`proto.rs` records) -/

/-- `std::net::IpAddr` as raw octet lists (4 bytes for V4, 16 for V6). -/
inductive IpAddr where
  | v4 (octets : List Nat)
  | v6 (octets : List Nat)
deriving DecidableEq, Repr

def IpAddr.wf : IpAddr → Bool
  | .v4 o => o.length == 4 && o.all (fun b => decide (b < 256))
  | .v6 o => o.length == 16 && o.all (fun b => decide (b < 256))

/-- Modelled from the spec: `Encodable for IpAddr` — the address encodes as
its 4- or 16-byte octet string. -/
def ipEncode : IpAddr → List Nat
  | .v4 o => rlpString o
  | .v6 o => rlpString o

/-- Modelled from the spec: `Decodable for IpAddr` — decode a byte string;
4 octets give a V4 address, 16 a V6 address, anything else is an error. -/
def ipDecode (buf : List Nat) : Except DecodeError (IpAddr × List Nat) := do
  let (s, rest) ← decodeBytesStr buf
  if s.length = 4 then pure (.v4 s, rest)
  else if s.length = 16 then pure (.v6 s, rest)
  else throw .unexpectedLength

/-- `NodeEndpoint` — the `from`/`to` fields of `Ping`/`Pong` (`proto.rs`). -/
structure NodeEndpoint where
  address : IpAddr
  udp_port : Nat
  tcp_port : Nat
deriving DecidableEq, Repr

def NodeEndpoint.wf (e : NodeEndpoint) : Bool :=
  e.address.wf && decide (e.udp_port < 2 ^ 16) && decide (e.tcp_port < 2 ^ 16)

/-- Modelled from the spec: the derived `RlpEncodable` for `NodeEndpoint` —
the 3-element list `[address, udp_port, tcp_port]` (payload part). -/
def nodeEndpointPayload (e : NodeEndpoint) : List Nat :=
  ipEncode e.address ++ rlpNat e.udp_port ++ rlpNat e.tcp_port

def nodeEndpointEncode (e : NodeEndpoint) : List Nat :=
  rlpList (nodeEndpointPayload e)

/-- Modelled from the spec: the derived `RlpDecodable` for `NodeEndpoint`,
which enforces that the consumed byte count equals the declared payload
length. -/
def nodeEndpointDecode (buf : List Nat) : Except DecodeError (NodeEndpoint × List Nat) := do
  let (rlp_head, b0) ← Header.decode buf
  if ¬ rlp_head.list then throw .unexpectedString
  else
    let started_len := b0.length
    let (address, b1) ← ipDecode b0
    let (udp_port, b2) ← decodeNatMax 2 b1
    let (tcp_port, b3) ← decodeNatMax 2 b2
    let consumed := started_len - b3.length
    if consumed ≠ rlp_head.payload_length then
      throw (.listLengthMismatch rlp_head.payload_length consumed)
    else pure ({ address, udp_port, tcp_port }, b3)

/-- `NodeRecord` (`reth_primitives`) — endpoint plus the 64-byte peer id.
Modelled from the spec: `{ address, udp_port, tcp_port, id: PeerId }`. -/
structure NodeRecord where
  address : IpAddr
  udp_port : Nat
  tcp_port : Nat
  id : List Nat
deriving DecidableEq, Repr

def NodeRecord.wf (r : NodeRecord) : Bool :=
  r.address.wf && decide (r.udp_port < 2 ^ 16) && decide (r.tcp_port < 2 ^ 16) &&
    r.id.length == 64 && r.id.all (fun b => decide (b < 256))

def nodeRecordPayload (r : NodeRecord) : List Nat :=
  ipEncode r.address ++ rlpNat r.udp_port ++ rlpNat r.tcp_port ++ rlpString r.id

def nodeRecordEncode (r : NodeRecord) : List Nat :=
  rlpList (nodeRecordPayload r)

def nodeRecordDecode (buf : List Nat) : Except DecodeError (NodeRecord × List Nat) := do
  let (rlp_head, b0) ← Header.decode buf
  if ¬ rlp_head.list then throw .unexpectedString
  else
    let started_len := b0.length
    let (address, b1) ← ipDecode b0
    let (udp_port, b2) ← decodeNatMax 2 b1
    let (tcp_port, b3) ← decodeNatMax 2 b2
    let (id, b4) ← decodeFixed 64 b3
    let consumed := started_len - b4.length
    if consumed ≠ rlp_head.payload_length then
      throw (.listLengthMismatch rlp_head.payload_length consumed)
    else pure ({ address, udp_port, tcp_port, id }, b4)

/-- `FindNode` packet (`proto.rs`): `{ id: PeerId, expire: u64 }`. -/
structure FindNode where
  id : List Nat
  expire : Nat
deriving DecidableEq, Repr

def FindNode.wf (f : FindNode) : Bool :=
  f.id.length == 64 && f.id.all (fun b => decide (b < 256)) && decide (f.expire < 2 ^ 64)

def findNodePayload (f : FindNode) : List Nat :=
  rlpString f.id ++ rlpNat f.expire

def findNodeEncode (f : FindNode) : List Nat :=
  rlpList (findNodePayload f)

def findNodeDecode (buf : List Nat) : Except DecodeError (FindNode × List Nat) := do
  let (rlp_head, b0) ← Header.decode buf
  if ¬ rlp_head.list then throw .unexpectedString
  else
    let started_len := b0.length
    let (id, b1) ← decodeFixed 64 b0
    let (expire, b2) ← decodeNatMax 8 b1
    let consumed := started_len - b2.length
    if consumed ≠ rlp_head.payload_length then
      throw (.listLengthMismatch rlp_head.payload_length consumed)
    else pure ({ id, expire }, b2)

/-- Item loop of `Vec<T>` decoding: decode items from the payload view until
it is exhausted; the fuel (initially the view length) only rules out a
non-consuming decoder and is never exhausted on real inputs. -/
def decodeItems {α : Type} (dec : List Nat → Except DecodeError (α × List Nat)) :
    Nat → List Nat → Except DecodeError (List α)
  | _, [] => .ok []
  | 0, _ :: _ => .error (.custom "no progress in sequence decoding")
  | fuel + 1, x :: rest => do
    let (item, r) ← dec (x :: rest)
    let items ← decodeItems dec fuel r
    .ok (item :: items)

/-- Modelled from the spec: `Vec<T>` decoding — a list header, then items
decoded from the bounded payload view until it is exhausted, then the outer
buffer advanced by the payload length. -/
def decodeVec {α : Type} (dec : List Nat → Except DecodeError (α × List Nat))
    (buf : List Nat) : Except DecodeError (List α × List Nat) := do
  let (h, b) ← Header.decode buf
  if ¬ h.list then throw .unexpectedString
  else
    let view := b.take h.payload_length
    let items ← decodeItems dec view.length view
    pure (items, b.drop h.payload_length)

/-- Modelled from the spec: `Vec<T>` encoding — a list header over the
concatenated item encodings. -/
def encodeVec {α : Type} (enc : α → List Nat) (l : List α) : List Nat :=
  rlpList (l.map enc).flatten

/-- `Neighbours` packet (`proto.rs`): `{ nodes: Vec<NodeRecord>, expire: u64 }`. -/
structure Neighbours where
  nodes : List NodeRecord
  expire : Nat
deriving DecidableEq, Repr

def Neighbours.wf (n : Neighbours) : Bool :=
  n.nodes.all NodeRecord.wf && decide (n.expire < 2 ^ 64) &&
    decide (n.nodes.length < 2 ^ 32)

def neighboursPayload (n : Neighbours) : List Nat :=
  encodeVec nodeRecordEncode n.nodes ++ rlpNat n.expire

def neighboursEncode (n : Neighbours) : List Nat :=
  rlpList (neighboursPayload n)

def neighboursDecode (buf : List Nat) : Except DecodeError (Neighbours × List Nat) := do
  let (rlp_head, b0) ← Header.decode buf
  if ¬ rlp_head.list then throw .unexpectedString
  else
    let started_len := b0.length
    let (nodes, b1) ← decodeVec nodeRecordDecode b0
    let (expire, b2) ← decodeNatMax 8 b1
    let consumed := started_len - b2.length
    if consumed ≠ rlp_head.payload_length then
      throw (.listLengthMismatch rlp_head.payload_length consumed)
    else pure ({ nodes, expire }, b2)

/-- `EnrRequest` packet (`proto.rs`): `{ expire: u64 }`. -/
structure EnrRequest where
  expire : Nat
deriving DecidableEq, Repr

def EnrRequest.wf (e : EnrRequest) : Bool :=
  decide (e.expire < 2 ^ 64)

def enrRequestPayload (e : EnrRequest) : List Nat :=
  rlpNat e.expire

def enrRequestEncode (e : EnrRequest) : List Nat :=
  rlpList (enrRequestPayload e)

def enrRequestDecode (buf : List Nat) : Except DecodeError (EnrRequest × List Nat) := do
  let (rlp_head, b0) ← Header.decode buf
  if ¬ rlp_head.list then throw .unexpectedString
  else
    let started_len := b0.length
    let (expire, b1) ← decodeNatMax 8 b0
    let consumed := started_len - b1.length
    if consumed ≠ rlp_head.payload_length then
      throw (.listLengthMismatch rlp_head.payload_length consumed)
    else pure ({ expire }, b1)

/-- `Ping` packet (`proto.rs`): endpoints, expiry, and the optional EIP-868
`enr_sq` sequence number (the source's spelling). -/
structure Ping where
  from_ : NodeEndpoint
  to_ : NodeEndpoint
  expire : Nat
  enr_sq : Option Nat
deriving DecidableEq, Repr

def Ping.wf (p : Ping) : Bool :=
  p.from_.wf && p.to_.wf && decide (p.expire < 2 ^ 64) &&
    (match p.enr_sq with
     | some s => decide (s < 2 ^ 64)
     | none => true)

/-- `Ping::encode` (`proto.rs`): a list `[version=4, from, to, expire]`, with
`enr_seq` appended as a fifth element when present. -/
def pingPayload (p : Ping) : List Nat :=
  rlpNat 4 ++ nodeEndpointEncode p.from_ ++ nodeEndpointEncode p.to_ ++ rlpNat p.expire ++
    (match p.enr_sq with
     | some s => rlpNat s
     | none => [])

def pingEncode (p : Ping) : List Nat :=
  rlpList (pingPayload p)

/-- `Ping::decode` (`proto.rs`): reads the list header, discards the version,
decodes `from`, `to`, `expire`; decodes `enr_seq` whenever bytes remain in the
buffer; errors if consumption exceeds the declared payload length, and
silently skips any unconsumed declared payload. -/
def pingDecode (buf : List Nat) : Except DecodeError (Ping × List Nat) := do
  let (rlp_head, b0) ← Header.decode buf
  if ¬ rlp_head.list then throw .unexpectedString
  else
    let started_len := b0.length
    let (_version, b1) ← decodeNatMax 4 b0
    let (from_, b2) ← nodeEndpointDecode b1
    let (to_, b3) ← nodeEndpointDecode b2
    let (expire, b4) ← decodeNatMax 8 b3
    let (enr_sq, b5) ←
      if b4.isEmpty then pure ((none : Option Nat), b4)
      else do
        let (s, b5) ← decodeNatMax 8 b4
        pure (some s, b5)
    let consumed := started_len - b5.length
    if rlp_head.payload_length < consumed then
      throw (.listLengthMismatch rlp_head.payload_length consumed)
    else
      let rem := rlp_head.payload_length - consumed
      pure ({ from_, to_, expire, enr_sq }, b5.drop rem)

/-- `Pong` packet (`proto.rs`). -/
structure Pong where
  to_ : NodeEndpoint
  echo : List Nat
  expire : Nat
  enr_sq : Option Nat
deriving DecidableEq, Repr

def Pong.wf (p : Pong) : Bool :=
  p.to_.wf && p.echo.length == 32 && p.echo.all (fun b => decide (b < 256)) &&
    decide (p.expire < 2 ^ 64) &&
    (match p.enr_sq with
     | some s => decide (s < 2 ^ 64)
     | none => true)

/-- `Pong::encode` (`proto.rs`): `[to, echo, expire]` with optional `enr_seq`. -/
def pongPayload (p : Pong) : List Nat :=
  nodeEndpointEncode p.to_ ++ rlpString p.echo ++ rlpNat p.expire ++
    (match p.enr_sq with
     | some s => rlpNat s
     | none => [])

def pongEncode (p : Pong) : List Nat :=
  rlpList (pongPayload p)

/-- `Pong::decode` (`proto.rs`), symmetric to `Ping::decode`. -/
def pongDecode (buf : List Nat) : Except DecodeError (Pong × List Nat) := do
  let (rlp_head, b0) ← Header.decode buf
  if ¬ rlp_head.list then throw .unexpectedString
  else
    let started_len := b0.length
    let (to_, b1) ← nodeEndpointDecode b0
    let (echo, b2) ← decodeFixed 32 b1
    let (expire, b3) ← decodeNatMax 8 b2
    let (enr_sq, b4) ←
      if b3.isEmpty then pure ((none : Option Nat), b3)
      else do
        let (s, b4) ← decodeNatMax 8 b3
        pure (some s, b4)
    let consumed := started_len - b4.length
    if rlp_head.payload_length < consumed then
      throw (.listLengthMismatch rlp_head.payload_length consumed)
    else
      let rem := rlp_head.payload_length - consumed
      pure ({ to_, echo, expire, enr_sq }, b4.drop rem)

/-! ## ENR (Ethereum Node Record) -/

/-- ENR value: signature bytes, sequence number, and key/value pairs where
the values are raw pre-encoded RLP bytes (spec §3, §4.3). -/
structure Enr where
  signature : List Nat
  seq : Nat
  pairs : List (List Nat × List Nat)
deriving DecidableEq, Repr

/-- A buffer that is exactly one syntactically complete RLP item (header
plus declared payload).  Raw ENR values have this shape. -/
def singleRlpItem (v : List Nat) : Bool :=
  match Header.decode v with
  | .ok (h, b) => v.length == (v.length - b.length) + h.payload_length
  | .error _ => false

/-- Strict lexicographic order on byte strings, for ENR key ordering. -/
def bytesLt (a b : List Nat) : Bool :=
  match a, b with
  | [], [] => false
  | [], _ :: _ => true
  | _ :: _, [] => false
  | x :: xs, y :: ys => x < y || (x == y && bytesLt xs ys)

/-- The pair list is strictly ascending by key. -/
def pairsSorted : List (List Nat × List Nat) → Bool
  | [] => true
  | [_] => true
  | a :: b :: rest => bytesLt a.1 b.1 && pairsSorted (b :: rest)

/-- `EnrWrapper::encode` payload length (`proto.rs` lines 232-234):
encoded signature length + encoded seq length + Σ (encoded key length +
raw value length). -/
def enrPayloadLength (e : Enr) : Nat :=
  (rlpString e.signature).length + (rlpNat e.seq).length +
    (e.pairs.map (fun kv => (rlpString kv.1).length + kv.2.length)).sum

/-- The bytes following the list header in `EnrWrapper::encode`: signature,
seq, then each key (as an RLP string) followed by its raw value bytes. -/
def enrContent (e : Enr) : List Nat :=
  rlpString e.signature ++ rlpNat e.seq ++
    (e.pairs.map (fun kv => rlpString kv.1 ++ kv.2)).flatten

/-- `EnrWrapper::encode` (`proto.rs` lines 227-248). -/
def enrWrapperEncode (e : Enr) : List Nat :=
  lengthHeader 0xC0 (enrPayloadLength e) ++ enrContent e

def Enr.wf (e : Enr) : Bool :=
  e.signature.all (fun b => decide (b < 256)) && decide (e.seq < 2 ^ 64) &&
    e.pairs.all (fun kv =>
      kv.1.all (fun b => decide (b < 256)) && kv.2.all (fun b => decide (b < 256)) &&
        singleRlpItem kv.2) &&
    pairsSorted e.pairs && decide (enrPayloadLength e < 2 ^ 32)

/-- One raw RLP item taken verbatim from the buffer (header plus declared
payload), as the ENR decoder treats values. -/
def rawItemDecode (buf : List Nat) : Except DecodeError (List Nat × List Nat) := do
  let (h, b) ← Header.decode buf
  let total := (buf.length - b.length) + h.payload_length
  pure (buf.take total, buf.drop total)

/-- Pair loop of the ENR decoder: read key/value pairs until the list
payload view is exhausted; the fuel (initially the view length) only rules
out a non-consuming step and is never exhausted on real inputs. -/
def decodePairs : Nat → List Nat → Except DecodeError (List (List Nat × List Nat))
  | _, [] => .ok []
  | 0, _ :: _ => .error (.custom "no progress in pair decoding")
  | fuel + 1, x :: rest => do
    let (k, r1) ← decodeBytesStr (x :: rest)
    let (v, r2) ← rawItemDecode r1
    let ps ← decodePairs fuel r2
    .ok ((k, v) :: ps)

/-- Modelled from the spec (§4.3): the external `enr` library's RLP decoder —
parse a list header, then signature and seq, then key/value pairs until the
list payload is exhausted.  Returns only the value; `EnrWrapper::decode`
re-reads the header to advance its own cursor. -/
def enrRlpDecode (buf : List Nat) : Except DecodeError Enr := do
  let (h, b) ← Header.decode buf
  if ¬ h.list then throw .unexpectedString
  else
    let view := b.take h.payload_length
    let (signature, v1) ← decodeBytesStr view
    let (seq, v2) ← decodeNatMax 8 v1
    let pairs ← decodePairs v2.length v2
    pure { signature, seq, pairs }

/-- `EnrWrapper::decode` (`proto.rs` lines 258-286): run the `enr` library's
decoder; on success decode the header again from the original buffer and
advance past its declared payload length. -/
def enrWrapperDecode (buf : List Nat) : Except DecodeError (Enr × List Nat) := do
  let e ← enrRlpDecode buf
  let (h, b) ← Header.decode buf
  pure (e, b.drop h.payload_length)

/-- `EnrResponse` packet (`proto.rs`): `{ request_hash: H256, enr }`. -/
structure EnrResponse where
  request_hash : List Nat
  enr : Enr
deriving DecidableEq, Repr

def EnrResponse.wf (r : EnrResponse) : Bool :=
  r.request_hash.length == 32 && r.request_hash.all (fun b => decide (b < 256)) && r.enr.wf

def enrResponsePayload (r : EnrResponse) : List Nat :=
  rlpString r.request_hash ++ enrWrapperEncode r.enr

def enrResponseEncode (r : EnrResponse) : List Nat :=
  rlpList (enrResponsePayload r)

/-- `EnrResponse::decode` (`proto.rs` lines 313-337): list header, request
hash, ENR; the standard consumed-equals-payload-length check is deliberately
skipped (commented out in the source). -/
def enrResponseDecode (buf : List Nat) : Except DecodeError (EnrResponse × List Nat) := do
  let (rlp_head, b0) ← Header.decode buf
  if ¬ rlp_head.list then throw .unexpectedString
  else
    let (request_hash, b1) ← decodeFixed 32 b0
    let (enr, b2) ← enrWrapperDecode b1
    pure ({ request_hash, enr }, b2)

/-! ## The packet envelope -/

/-- Modelled from the spec (§6): the discv4 datagram cap (crate constant,
outside the analysed source fragment). -/
def MAX_PACKET_SIZE : Nat := 1280

/-- Modelled from the spec (§6): minimum packet size — 32 hash bytes,
64 signature bytes, 1 recovery-id byte, 1 type byte. -/
def MIN_PACKET_SIZE : Nat := 98

/-- Modelled from the spec (§6): the largest `k` such that a Neighbours
packet with `k` IPv6 records never exceeds `MAX_PACKET_SIZE` (crate
constant, outside the analysed source fragment); its defining property is
proved below. -/
def SAFE_MAX_DATAGRAM_NEIGHBOUR_RECORDS : Nat := 12

/-- Abstraction of the external secp256k1 and keccak-256 libraries: exactly
the operations `proto.rs` calls, together with the facts the spec assumes of
them — keccak-256 is a deterministic 32-byte digest on which no appended-byte
collision is feasible, and recoverable-ECDSA key recovery inverts signing. -/
structure Secp where
  SecretKey : Type
  PubKey : Type
  keccak : List Nat → List Nat
  keccak_len : ∀ s, (keccak s).length = 32
  keccak_snoc_zero_ne : ∀ s, keccak (s ++ [0]) ≠ keccak s
  sign : List Nat → SecretKey → List Nat × Nat
  sign_sig_len : ∀ d k, (sign d k).1.length = 64
  sign_rec_lt : ∀ d k, (sign d k).2 < 4
  fromCompact : List Nat → Bool
  sign_fromCompact : ∀ d k, fromCompact (sign d k).1 = true
  recover : List Nat → List Nat → Nat → Option PubKey
  pubkeyOf : SecretKey → PubKey
  serializeUncompressed : PubKey → List Nat
  uncompressed_len : ∀ p, (serializeUncompressed p).length = 65
  recover_sign : ∀ d k, recover d (sign d k).1 (sign d k).2 = some (pubkeyOf k)

/-- `secp256k1::ecdsa::RecoveryId::from_i32`: accepts exactly 0..=3. -/
def recIdFromI32 (n : Nat) : Option Nat :=
  if n < 4 then some n else none

/-- `MessageId` (`proto.rs` lines 24-31). -/
inductive MessageId where
  | ping
  | pong
  | findNode
  | neighbours
  | enrRequest
  | enrResponse
deriving DecidableEq, Repr

/-- `MessageId::from_u8` (`proto.rs` lines 33-47). -/
def MessageId.from_u8 (msg : Nat) : Except Nat MessageId :=
  match msg with
  | 1 => .ok .ping
  | 2 => .ok .pong
  | 3 => .ok .findNode
  | 4 => .ok .neighbours
  | 5 => .ok .enrRequest
  | 6 => .ok .enrResponse
  | _ => .error msg

/-- `Message` (`proto.rs` lines 51-58). -/
inductive Message where
  | ping (p : Ping)
  | pong (p : Pong)
  | findNode (m : FindNode)
  | neighbours (m : Neighbours)
  | enrRequest (m : EnrRequest)
  | enrResponse (m : EnrResponse)
deriving DecidableEq, Repr

def Message.wf : Message → Bool
  | .ping p => p.wf
  | .pong p => p.wf
  | .findNode m => m.wf
  | .neighbours m => m.wf
  | .enrRequest m => m.wf
  | .enrResponse m => m.wf

/-- The type byte written before the record payload (`proto.rs` lines 88-113). -/
def Message.typeByte : Message → Nat
  | .ping _ => 1
  | .pong _ => 2
  | .findNode _ => 3
  | .neighbours _ => 4
  | .enrRequest _ => 5
  | .enrResponse _ => 6

/-- The RLP body of the message record (`proto.rs` lines 88-113). -/
def Message.body : Message → List Nat
  | .ping p => pingEncode p
  | .pong p => pongEncode p
  | .findNode m => findNodeEncode m
  | .neighbours m => neighboursEncode m
  | .enrRequest m => enrRequestEncode m
  | .enrResponse m => enrResponseEncode m

/-- Secp256k1 error kinds surfaced by `Message::decode`
(modelled from the spec §7). -/
inductive SecpError where
  | invalidRecoveryId
  | invalidSignature
  | recoveryFailed
deriving DecidableEq, Repr

/-- `DecodePacketError` (crate `error.rs`, outside the analysed source
fragment; modelled from the spec §7). -/
inductive DecodePacketError where
  | packetTooShort
  | hashMismatch
  | secp256k1 (k : SecpError)
  | unknownMessage (b : Nat)
  | rlp (e : DecodeError)
deriving DecidableEq, Repr

/-- Decoded packet (`proto.rs` lines 180-184). -/
structure Packet where
  msg : Message
  node_id : List Nat
  hash : List Nat
deriving DecidableEq, Repr

/-- `Message::encode` (`proto.rs` lines 79-131): build
`payload = type ‖ rlp(record)`, sign `keccak256(payload)` with the secret
key, assemble `sig ‖ rec_id ‖ payload`, hash it, and return the datagram
`hash ‖ sig ‖ rec_id ‖ payload` together with the hash. -/
def Message.encode (S : Secp) (m : Message) (secret_key : S.SecretKey) :
    List Nat × List Nat :=
  let payload := m.typeByte :: m.body
  let sr := S.sign (S.keccak payload) secret_key
  let sig_bytes := sr.1 ++ (sr.2 % 256) :: payload
  let hash := S.keccak sig_bytes
  (hash ++ sig_bytes, hash)

/-- Record dispatch of `Message::decode` (`proto.rs` lines 165-172). -/
def decodeMsgBody : MessageId → List Nat → Except DecodeError Message
  | .ping, payload => do
    let (p, _) ← pingDecode payload
    pure (.ping p)
  | .pong, payload => do
    let (p, _) ← pongDecode payload
    pure (.pong p)
  | .findNode, payload => do
    let (m, _) ← findNodeDecode payload
    pure (.findNode m)
  | .neighbours, payload => do
    let (m, _) ← neighboursDecode payload
    pure (.neighbours m)
  | .enrRequest, payload => do
    let (m, _) ← enrRequestDecode payload
    pure (.enrRequest m)
  | .enrResponse, payload => do
    let (m, _) ← enrResponseDecode payload
    pure (.enrResponse m)

/-- The stage of `Message::decode` after the envelope hash has verified
(`proto.rs` lines 152-174): recovery id at byte 96, signature parse,
public-key recovery over `keccak256(packet[97..])`, then type dispatch. -/
def Message.decodePayload (S : Secp) (packet header_hash : List Nat) :
    Except DecodePacketError Packet :=
  match recIdFromI32 (packet.getD 96 0) with
  | none => .error (.secp256k1 .invalidRecoveryId)
  | some recovery_id =>
    if ¬ S.fromCompact ((packet.drop 32).take 64) then .error (.secp256k1 .invalidSignature)
    else
      match S.recover (S.keccak (packet.drop 97)) ((packet.drop 32).take 64) recovery_id with
      | none => .error (.secp256k1 .recoveryFailed)
      | some pk =>
        match MessageId.from_u8 (packet.getD 97 0) with
        | .error b => .error (.unknownMessage b)
        | .ok mid =>
          match decodeMsgBody mid (packet.drop 98) with
          | .error e => .error (.rlp e)
          | .ok msg =>
            .ok { msg, node_id := (S.serializeUncompressed pk).drop 1, hash := header_hash }

/-- `Message::decode` (`proto.rs` lines 136-175): length check, envelope
hash check over `packet[32..]`, then the signature/recovery/dispatch stage. -/
def Message.decode (S : Secp) (packet : List Nat) : Except DecodePacketError Packet :=
  if packet.length < MIN_PACKET_SIZE then .error .packetTooShort
  else if packet.take 32 ≠ S.keccak (packet.drop 32) then .error .hashMismatch
  else Message.decodePayload S packet (S.keccak (packet.drop 32))

/-! ## Encoding length facts -/

theorem lengthHeader_length_short (base len : Nat) (h : len < 56) :
    (lengthHeader base len).length = 1 := by
  unfold lengthHeader
  rw [if_pos h]
  simp

theorem lengthHeader_length_of_lt_256 (base len : Nat) (h56 : 56 ≤ len) (h : len < 256) :
    (lengthHeader base len).length = 2 := by
  unfold lengthHeader
  rw [if_neg (by omega)]
  rw [beBytes_length_eq_one len (by omega) h]
  simp

theorem rlpString_length_of_ne_one (s : List Nat) (h : s.length ≠ 1) :
    (rlpString s).length = (lengthHeader 0x80 s.length).length + s.length := by
  match s with
  | [] => simp [rlpString, lengthHeader]
  | [b] => simp at h
  | a :: c :: r => simp [rlpString]

theorem rlpString_length_small (s : List Nat) (h1 : s.length ≠ 1) (h56 : s.length < 56) :
    (rlpString s).length = s.length + 1 := by
  rw [rlpString_length_of_ne_one s h1, lengthHeader_length_short 0x80 s.length h56]
  omega

theorem rlpString_length_single (b : Nat) : (rlpString [b]).length ≤ 2 := by
  simp only [rlpString]
  split <;> simp

theorem rlpNat_length_le (n k : Nat) (hn : n < 256 ^ k) (hk1 : 1 ≤ k) (hk55 : k ≤ 55) :
    (rlpNat n).length ≤ k + 1 := by
  have hbl : (beBytes n).length ≤ k := beBytes_length_le n k hn
  unfold rlpNat
  rcases hbe : beBytes n with _ | ⟨c, l⟩
  · simp [rlpString, lengthHeader]
  · rcases hl : l with _ | ⟨c2, l2⟩
    · have := rlpString_length_single c
      omega
    · rw [hbe] at hbl
      have h1 : (c :: l).length ≠ 1 := by rw [hl]; simp
      have h56 : (c :: l).length < 56 := by omega
      rw [← hl, rlpString_length_small (c :: l) h1 h56]
      omega

theorem ipEncode_v4_length (o : List Nat) (h : o.length = 4) :
    (ipEncode (.v4 o)).length = 5 := by
  unfold ipEncode
  rw [rlpString_length_small o (by omega) (by omega), h]

theorem ipEncode_v6_length (o : List Nat) (h : o.length = 16) :
    (ipEncode (.v6 o)).length = 17 := by
  unfold ipEncode
  rw [rlpString_length_small o (by omega) (by omega), h]

theorem ipEncode_length_le (a : IpAddr) (h : a.wf = true) : (ipEncode a).length ≤ 17 := by
  cases a with
  | v4 o =>
    simp only [IpAddr.wf, Bool.and_eq_true, beq_iff_eq] at h
    rw [ipEncode_v4_length o h.1]
    omega
  | v6 o =>
    simp only [IpAddr.wf, Bool.and_eq_true, beq_iff_eq] at h
    rw [ipEncode_v6_length o h.1]

theorem ipEncode_length_ge (a : IpAddr) (h : a.wf = true) : 5 ≤ (ipEncode a).length := by
  cases a with
  | v4 o =>
    simp only [IpAddr.wf, Bool.and_eq_true, beq_iff_eq] at h
    rw [ipEncode_v4_length o h.1]
  | v6 o =>
    simp only [IpAddr.wf, Bool.and_eq_true, beq_iff_eq] at h
    rw [ipEncode_v6_length o h.1]
    omega

theorem two_pow_16_eq : (2 : Nat) ^ 16 = 256 ^ 2 := by norm_num

theorem two_pow_64_eq : (2 : Nat) ^ 64 = 256 ^ 8 := by norm_num

theorem two_pow_32_eq : (2 : Nat) ^ 32 = 4294967296 := by norm_num

theorem port_rlp_le (p : Nat) (h : p < 2 ^ 16) : (rlpNat p).length ≤ 3 := by
  exact rlpNat_length_le p 2 (by rw [← two_pow_16_eq]; omega) (by omega) (by omega)

theorem u64_rlp_le (v : Nat) (h : v < 2 ^ 64) : (rlpNat v).length ≤ 9 := by
  exact rlpNat_length_le v 8 (by rw [← two_pow_64_eq]; omega) (by omega) (by omega)

theorem nodeEndpointPayload_le (e : NodeEndpoint) (h : e.wf = true) :
    (nodeEndpointPayload e).length ≤ 23 := by
  simp only [NodeEndpoint.wf, Bool.and_eq_true, decide_eq_true_eq] at h
  obtain ⟨⟨ha, hu⟩, htc⟩ := h
  have h1 := ipEncode_length_le e.address ha
  have h2 := port_rlp_le e.udp_port hu
  have h3 := port_rlp_le e.tcp_port htc
  simp only [nodeEndpointPayload, List.length_append]
  omega

/-! ## Record decoder round trips -/

theorem ipDecode_rt (a : IpAddr) (t : List Nat) (hwf : a.wf = true) :
    ipDecode (ipEncode a ++ t) = .ok (a, t) := by
  cases a with
  | v4 o =>
    simp only [IpAddr.wf, Bool.and_eq_true, beq_iff_eq] at hwf
    have h4 : o.length = 4 := hwf.1
    have hb := decodeBytesStr_rt o t (by rw [pow_256_8_eq]; omega)
    simp [ipDecode, ipEncode, hb, Bind.bind, Except.bind, h4, pure, Except.pure]
  | v6 o =>
    simp only [IpAddr.wf, Bool.and_eq_true, beq_iff_eq] at hwf
    have h16 : o.length = 16 := hwf.1
    have hb := decodeBytesStr_rt o t (by rw [pow_256_8_eq]; omega)
    simp [ipDecode, ipEncode, hb, Bind.bind, Except.bind, h16, pure, Except.pure]

theorem nodeEndpointDecode_rt (e : NodeEndpoint) (t : List Nat) (hwf : e.wf = true) :
    nodeEndpointDecode (nodeEndpointEncode e ++ t) = .ok (e, t) := by
  have hle := nodeEndpointPayload_le e hwf
  simp only [NodeEndpoint.wf, Bool.and_eq_true, decide_eq_true_eq] at hwf
  obtain ⟨⟨ha, hu⟩, htc⟩ := hwf
  have hh := Header.decode_rlpList (nodeEndpointPayload e) t (by rw [pow_256_8_eq]; omega)
  have h1 := ipDecode_rt e.address (rlpNat e.udp_port ++ (rlpNat e.tcp_port ++ t)) ha
  have h2 := decodeNatMax_rt 2 e.udp_port (rlpNat e.tcp_port ++ t)
    (by rw [← two_pow_16_eq]; omega) (by omega)
  have h3 := decodeNatMax_rt 2 e.tcp_port t (by rw [← two_pow_16_eq]; omega) (by omega)
  simp only [nodeEndpointPayload, List.append_assoc] at hh
  simp only [nodeEndpointDecode, nodeEndpointEncode, nodeEndpointPayload, List.append_assoc,
    hh, h1, h2, h3, Bind.bind, Except.bind, Bool.not_true, Bool.false_eq_true, if_false,
    List.length_append]
  rw [if_neg (by simp), if_neg (by omega)]
  rfl

theorem rlpString_length_64 (s : List Nat) (h : s.length = 64) :
    (rlpString s).length = 66 := by
  rw [rlpString_length_of_ne_one s (by omega), h,
    lengthHeader_length_of_lt_256 0x80 64 (by omega) (by omega)]

theorem rlpString_length_32 (s : List Nat) (h : s.length = 32) :
    (rlpString s).length = 33 := by
  rw [rlpString_length_of_ne_one s (by omega), h, lengthHeader_length_short 0x80 32 (by omega)]

theorem nodeRecordPayload_le (r : NodeRecord) (h : r.wf = true) :
    (nodeRecordPayload r).length ≤ 89 := by
  simp only [NodeRecord.wf, Bool.and_eq_true, decide_eq_true_eq, beq_iff_eq] at h
  obtain ⟨⟨⟨⟨ha, hu⟩, htc⟩, hid⟩, _⟩ := h
  have h1 := ipEncode_length_le r.address ha
  have h2 := port_rlp_le r.udp_port hu
  have h3 := port_rlp_le r.tcp_port htc
  have h4 := rlpString_length_64 r.id hid
  simp only [nodeRecordPayload, List.length_append]
  omega

theorem nodeRecordDecode_rt (r : NodeRecord) (t : List Nat) (hwf : r.wf = true) :
    nodeRecordDecode (nodeRecordEncode r ++ t) = .ok (r, t) := by
  have hle := nodeRecordPayload_le r hwf
  simp only [NodeRecord.wf, Bool.and_eq_true, decide_eq_true_eq, beq_iff_eq] at hwf
  obtain ⟨⟨⟨⟨ha, hu⟩, htc⟩, hid⟩, _⟩ := hwf
  have hh := Header.decode_rlpList (nodeRecordPayload r) t (by rw [pow_256_8_eq]; omega)
  have h1 := ipDecode_rt r.address
    (rlpNat r.udp_port ++ (rlpNat r.tcp_port ++ (rlpString r.id ++ t))) ha
  have h2 := decodeNatMax_rt 2 r.udp_port (rlpNat r.tcp_port ++ (rlpString r.id ++ t))
    (by rw [← two_pow_16_eq]; omega) (by omega)
  have h3 := decodeNatMax_rt 2 r.tcp_port (rlpString r.id ++ t)
    (by rw [← two_pow_16_eq]; omega) (by omega)
  have h4 := decodeFixed_rt r.id t 64 hid (by omega) (by rw [pow_256_8_eq]; omega)
  simp only [nodeRecordPayload, List.append_assoc] at hh
  simp only [nodeRecordDecode, nodeRecordEncode, nodeRecordPayload, List.append_assoc,
    hh, h1, h2, h3, h4, Bind.bind, Except.bind, Bool.not_true, Bool.false_eq_true, if_false,
    List.length_append]
  rw [if_neg (by simp), if_neg (by omega)]
  rfl

theorem findNodeDecode_rt (f : FindNode) (t : List Nat) (hwf : f.wf = true) :
    findNodeDecode (findNodeEncode f ++ t) = .ok (f, t) := by
  simp only [FindNode.wf, Bool.and_eq_true, decide_eq_true_eq, beq_iff_eq] at hwf
  obtain ⟨⟨hid, _⟩, hex⟩ := hwf
  have hexl := u64_rlp_le f.expire hex
  have hidl := rlpString_length_64 f.id hid
  have hh := Header.decode_rlpList (findNodePayload f) t (by
    simp only [findNodePayload, List.length_append]
    rw [pow_256_8_eq]; omega)
  have h1 := decodeFixed_rt f.id (rlpNat f.expire ++ t) 64 hid (by omega)
    (by rw [pow_256_8_eq]; omega)
  have h2 := decodeNatMax_rt 8 f.expire t (by rw [← two_pow_64_eq]; omega) (by omega)
  simp only [findNodePayload, List.append_assoc] at hh
  simp only [findNodeDecode, findNodeEncode, findNodePayload, List.append_assoc,
    hh, h1, h2, Bind.bind, Except.bind, Bool.not_true, Bool.false_eq_true, if_false,
    List.length_append]
  rw [if_neg (by simp), if_neg (by omega)]
  rfl

theorem enrRequestDecode_rt (e : EnrRequest) (t : List Nat) (hwf : e.wf = true) :
    enrRequestDecode (enrRequestEncode e ++ t) = .ok (e, t) := by
  simp only [EnrRequest.wf, decide_eq_true_eq] at hwf
  have hexl := u64_rlp_le e.expire hwf
  have hh := Header.decode_rlpList (enrRequestPayload e) t (by
    simp only [enrRequestPayload]
    rw [pow_256_8_eq]; omega)
  have h1 := decodeNatMax_rt 8 e.expire t (by rw [← two_pow_64_eq]; omega) (by omega)
  simp only [enrRequestPayload] at hh
  simp only [enrRequestDecode, enrRequestEncode, enrRequestPayload, List.append_assoc,
    hh, h1, Bind.bind, Except.bind, Bool.not_true, Bool.false_eq_true, if_false,
    List.length_append]
  rw [if_neg (by simp), if_neg (by omega)]
  rfl

theorem lengthHeader_length_le_two (base len : Nat) (h : len < 256) :
    (lengthHeader base len).length ≤ 2 := by
  by_cases h56 : len < 56
  · rw [lengthHeader_length_short base len h56]
    omega
  · rw [lengthHeader_length_of_lt_256 base len (by omega) h]

theorem rlpList_length_le (p : List Nat) (h : p.length < 256) :
    (rlpList p).length ≤ p.length + 2 := by
  have := lengthHeader_length_le_two 0xC0 p.length h
  simp only [rlpList, List.length_append]
  omega

theorem rlpList_length_ge (p : List Nat) : p.length + 1 ≤ (rlpList p).length := by
  have := lengthHeader_length_pos 0xC0 p.length
  simp only [rlpList, List.length_append]
  omega

theorem nodeRecordEncode_le (r : NodeRecord) (h : r.wf = true) :
    (nodeRecordEncode r).length ≤ 91 := by
  have h1 := nodeRecordPayload_le r h
  have h2 := rlpList_length_le (nodeRecordPayload r) (by omega)
  simp only [nodeRecordEncode]
  omega

theorem nodeRecordEncode_ne_nil (r : NodeRecord) : nodeRecordEncode r ≠ [] := by
  have := rlpList_length_ge (nodeRecordPayload r)
  intro hc
  rw [nodeRecordEncode] at hc
  rw [hc] at this
  simp at this

theorem flatten_map_length_le {α : Type} (l : List α) (f : α → List Nat) (c : Nat)
    (h : ∀ x ∈ l, (f x).length ≤ c) : ((l.map f).flatten).length ≤ c * l.length := by
  induction l with
  | nil => simp
  | cons a l ih =>
    simp only [List.map_cons, List.flatten_cons, List.length_append, List.length_cons]
    have h1 := h a (by simp)
    have h2 := ih (fun x hx => h x (by simp [hx]))
    have : c * (l.length + 1) = c * l.length + c := by ring
    omega

theorem flatten_map_length_ge {α : Type} (l : List α) (f : α → List Nat) (c : Nat)
    (h : ∀ x ∈ l, c ≤ (f x).length) : c * l.length ≤ ((l.map f).flatten).length := by
  induction l with
  | nil => simp
  | cons a l ih =>
    simp only [List.map_cons, List.flatten_cons, List.length_append, List.length_cons]
    have h1 := h a (by simp)
    have h2 := ih (fun x hx => h x (by simp [hx]))
    have : c * (l.length + 1) = c * l.length + c := by ring
    omega

theorem decodeItems_rt (items : List NodeRecord) (fuel : Nat)
    (hwf : items.all NodeRecord.wf = true)
    (hfuel : ((items.map nodeRecordEncode).flatten).length ≤ fuel) :
    decodeItems nodeRecordDecode fuel ((items.map nodeRecordEncode).flatten) = .ok items := by
  induction items generalizing fuel with
  | nil =>
    rcases fuel with _ | f <;> simp [decodeItems]
  | cons r rest ih =>
    simp only [List.all_cons, Bool.and_eq_true] at hwf
    obtain ⟨hr, hrest⟩ := hwf
    have hd := nodeRecordDecode_rt r ((rest.map nodeRecordEncode).flatten) hr
    rcases henc : nodeRecordEncode r with _ | ⟨x, xr⟩
    · exact absurd henc (nodeRecordEncode_ne_nil r)
    simp only [List.map_cons, List.flatten_cons, henc] at hfuel ⊢
    rcases fuel with _ | f
    · simp at hfuel
    simp only [List.cons_append, List.length_cons, List.length_append] at hfuel ⊢
    rw [henc] at hd
    simp only [List.cons_append] at hd
    have hih := ih f hrest (by omega)
    simp only [decodeItems, hd, hih, Bind.bind, Except.bind]

theorem decodeVec_rt (items : List NodeRecord) (t : List Nat)
    (hwf : items.all NodeRecord.wf = true)
    (h8 : ((items.map nodeRecordEncode).flatten).length < 256 ^ 8) :
    decodeVec nodeRecordDecode (encodeVec nodeRecordEncode items ++ t) = .ok (items, t) := by
  have hh := Header.decode_rlpList ((items.map nodeRecordEncode).flatten) t h8
  have hitems := decodeItems_rt items ((items.map nodeRecordEncode).flatten).length hwf
    (by omega)
  simp only [decodeVec, encodeVec, hh, Bind.bind, Except.bind, Bool.not_true,
    Bool.false_eq_true, if_false, List.take_left, List.drop_left, hitems]
  rfl

theorem neighboursNodesBytes_le (n : Neighbours) (h : n.nodes.all NodeRecord.wf = true) :
    ((n.nodes.map nodeRecordEncode).flatten).length ≤ 91 * n.nodes.length := by
  exact flatten_map_length_le n.nodes nodeRecordEncode 91 (fun r hr =>
    nodeRecordEncode_le r (by
      rw [List.all_eq_true] at h
      exact h r hr))

theorem neighboursDecode_rt (n : Neighbours) (t : List Nat) (hwf : n.wf = true) :
    neighboursDecode (neighboursEncode n ++ t) = .ok (n, t) := by
  simp only [Neighbours.wf, Bool.and_eq_true, decide_eq_true_eq] at hwf
  obtain ⟨⟨hnodes, hex⟩, hcount⟩ := hwf
  have hbytes := neighboursNodesBytes_le n hnodes
  have h8 : ((n.nodes.map nodeRecordEncode).flatten).length < 256 ^ 8 := by
    rw [pow_256_8_eq]
    have : (91 : Nat) * n.nodes.length ≤ 91 * 2 ^ 32 :=
      Nat.mul_le_mul_left 91 (le_of_lt hcount)
    have h91 : (91 : Nat) * 2 ^ 32 = 390842023936 := by norm_num
    omega
  have hexl := u64_rlp_le n.expire hex
  have hp8 : (neighboursPayload n).length < 256 ^ 8 := by
    simp only [neighboursPayload, List.length_append, encodeVec]
    have h1 := rlpList_length_ge ((n.nodes.map nodeRecordEncode).flatten)
    have h2 : (rlpList ((n.nodes.map nodeRecordEncode).flatten)).length ≤
        ((n.nodes.map nodeRecordEncode).flatten).length + 9 := by
      simp only [rlpList, List.length_append]
      have := lengthHeader_length_le 0xC0 ((n.nodes.map nodeRecordEncode).flatten).length 8 h8
      omega
    rw [pow_256_8_eq] at h8 ⊢
    omega
  have hh := Header.decode_rlpList (neighboursPayload n) t hp8
  have h1 := decodeVec_rt n.nodes (rlpNat n.expire ++ t) hnodes h8
  have h2 := decodeNatMax_rt 8 n.expire t (by rw [← two_pow_64_eq]; omega) (by omega)
  simp only [neighboursPayload, List.append_assoc] at hh
  simp only [neighboursDecode, neighboursEncode, neighboursPayload, List.append_assoc,
    hh, h1, h2, Bind.bind, Except.bind, Bool.not_true, Bool.false_eq_true, if_false,
    List.length_append]
  rw [if_neg (by simp), if_neg (by omega)]
  rfl

/-! ## Ping and Pong round trips -/

theorem nodeEndpointEncode_le (e : NodeEndpoint) (h : e.wf = true) :
    (nodeEndpointEncode e).length ≤ 24 := by
  have h1 := nodeEndpointPayload_le e h
  have h2 := lengthHeader_length_short 0xC0 (nodeEndpointPayload e).length (by omega)
  simp only [nodeEndpointEncode, rlpList, List.length_append]
  omega

theorem drop_append_full (junk t : List Nat) (E : Nat) (h : E = junk.length) :
    (junk ++ t).drop E = t := by
  rw [h]
  exact List.drop_left _ _

theorem append_isEmpty_false (l t : List Nat) (h : 1 ≤ l.length) :
    (l ++ t).isEmpty = false := by
  rcases l with _ | ⟨a, r⟩
  · simp at h
  · simp

/-- A Ping list body as laid out on the wire, with an arbitrary version word
and arbitrary extra bytes inside the declared list payload. -/
def pingListBytes (version : Nat) (p : Ping) (junk : List Nat) : List Nat :=
  rlpList (rlpNat version ++ nodeEndpointEncode p.from_ ++ nodeEndpointEncode p.to_ ++
    rlpNat p.expire ++
    (match p.enr_sq with
     | some s => rlpNat s
     | none => []) ++ junk)

theorem pingEncode_eq_listBytes (p : Ping) : pingEncode p = pingListBytes 4 p [] := by
  simp [pingEncode, pingListBytes, pingPayload]

theorem pingDecode_some (version : Nat) (p : Ping) (s : Nat) (junk t : List Nat)
    (hv : version < 2 ^ 32) (hwf : p.wf = true) (hs : p.enr_sq = some s)
    (hj : junk.length < 2 ^ 32) :
    pingDecode (pingListBytes version p junk ++ t) = .ok (p, t) := by
  simp only [Ping.wf, hs, Bool.and_eq_true, decide_eq_true_eq] at hwf
  obtain ⟨⟨⟨hf, ht⟩, hex⟩, hsv⟩ := hwf
  have hfl := nodeEndpointEncode_le p.from_ hf
  have htl := nodeEndpointEncode_le p.to_ ht
  have hvl : (rlpNat version).length ≤ 5 := by
    exact rlpNat_length_le version 4 (by norm_num at hv ⊢; omega) (by omega) (by omega)
  have hexl := u64_rlp_le p.expire hex
  have hsl := u64_rlp_le s hsv
  have hp8 : (rlpNat version ++ nodeEndpointEncode p.from_ ++ nodeEndpointEncode p.to_ ++
      rlpNat p.expire ++ rlpNat s ++ junk).length < 256 ^ 8 := by
    simp only [List.length_append]
    rw [pow_256_8_eq]
    omega
  have hh := Header.decode_rlpList (rlpNat version ++ nodeEndpointEncode p.from_ ++
    nodeEndpointEncode p.to_ ++ rlpNat p.expire ++ rlpNat s ++ junk) t hp8
  have h1 := decodeNatMax_rt 4 version (nodeEndpointEncode p.from_ ++
    (nodeEndpointEncode p.to_ ++ (rlpNat p.expire ++ (rlpNat s ++ (junk ++ t)))))
    (by norm_num at hv ⊢; omega) (by omega)
  have h2 := nodeEndpointDecode_rt p.from_
    (nodeEndpointEncode p.to_ ++ (rlpNat p.expire ++ (rlpNat s ++ (junk ++ t)))) hf
  have h3 := nodeEndpointDecode_rt p.to_ (rlpNat p.expire ++ (rlpNat s ++ (junk ++ t))) ht
  have h4 := decodeNatMax_rt 8 p.expire (rlpNat s ++ (junk ++ t))
    (by rw [← two_pow_64_eq]; omega) (by omega)
  have h5 := decodeNatMax_rt 8 s (junk ++ t) (by rw [← two_pow_64_eq]; omega) (by omega)
  have hemp := append_isEmpty_false (rlpNat s) (junk ++ t) (rlpNat_length_pos s)
  have hX : ({ from_ := p.from_, to_ := p.to_, expire := p.expire, enr_sq := some s } : Ping)
      = p := by
    obtain ⟨f, t_, ex, es⟩ := p
    simp only at hs
    rw [hs]
  simp only [List.append_assoc] at hh
  simp only [pingDecode, pingListBytes, hs, List.append_assoc, hh, h1, h2, h3, h4, h5,
    hemp, Bind.bind, Except.bind, pure, Except.pure, Bool.not_true, Bool.false_eq_true,
    if_false, List.length_append, not_true]
  split
  · rename_i hcond
    exact absurd hcond (by omega)
  · rw [hX]
    simp only [Except.ok.injEq, Prod.mk.injEq, true_and]
    exact drop_append_full junk t _ (by omega)

theorem pingDecode_none (version : Nat) (p : Ping)
    (hv : version < 2 ^ 32) (hwf : p.wf = true) (hn : p.enr_sq = none) :
    pingDecode (pingListBytes version p []) = .ok (p, []) := by
  simp only [Ping.wf, hn, Bool.and_eq_true, decide_eq_true_eq] at hwf
  obtain ⟨⟨⟨hf, ht⟩, hex⟩, -⟩ := hwf
  have hfl := nodeEndpointEncode_le p.from_ hf
  have htl := nodeEndpointEncode_le p.to_ ht
  have hvl : (rlpNat version).length ≤ 5 := by
    exact rlpNat_length_le version 4 (by norm_num at hv ⊢; omega) (by omega) (by omega)
  have hexl := u64_rlp_le p.expire hex
  have hp8 : (rlpNat version ++ nodeEndpointEncode p.from_ ++ nodeEndpointEncode p.to_ ++
      rlpNat p.expire).length < 256 ^ 8 := by
    simp only [List.length_append]
    rw [pow_256_8_eq]
    omega
  have hh := Header.decode_rlpList (rlpNat version ++ nodeEndpointEncode p.from_ ++
    nodeEndpointEncode p.to_ ++ rlpNat p.expire) [] hp8
  have h1 := decodeNatMax_rt 4 version (nodeEndpointEncode p.from_ ++
    (nodeEndpointEncode p.to_ ++ rlpNat p.expire))
    (by norm_num at hv ⊢; omega) (by omega)
  have h2 := nodeEndpointDecode_rt p.from_
    (nodeEndpointEncode p.to_ ++ rlpNat p.expire) hf
  have h3 := nodeEndpointDecode_rt p.to_ (rlpNat p.expire) ht
  have h4 := decodeNatMax_rt 8 p.expire [] (by rw [← two_pow_64_eq]; omega) (by omega)
  have hX : ({ from_ := p.from_, to_ := p.to_, expire := p.expire, enr_sq := none } : Ping)
      = p := by
    obtain ⟨f, t_, ex, es⟩ := p
    simp only at hn
    rw [hn]
  simp only [List.append_assoc, List.append_nil] at hh h1 h2 h3 h4
  simp only [pingDecode, pingListBytes, hn, List.append_assoc, List.append_nil, hh,
    h1, h2, h3, h4, Bind.bind, Except.bind, pure, Except.pure, Bool.not_true,
    Bool.false_eq_true, if_false, List.length_append, List.isEmpty_nil, if_true,
    List.length_nil, not_true]
  split
  · rename_i hcond
    exact absurd hcond (by omega)
  · rw [hX]
    simp

theorem pingDecode_none_trailing (p : Ping) (hwf : p.wf = true) (hn : p.enr_sq = none) :
    pingDecode (pingEncode p ++ [1]) =
      .error (.listLengthMismatch (pingPayload p).length ((pingPayload p).length + 1)) := by
  simp only [Ping.wf, hn, Bool.and_eq_true, decide_eq_true_eq] at hwf
  obtain ⟨⟨⟨hf, ht⟩, hex⟩, -⟩ := hwf
  have hfl := nodeEndpointEncode_le p.from_ hf
  have htl := nodeEndpointEncode_le p.to_ ht
  have hexl := u64_rlp_le p.expire hex
  have hvl : (rlpNat 4).length = 1 := by decide
  have hp8 : (rlpNat 4 ++ nodeEndpointEncode p.from_ ++ nodeEndpointEncode p.to_ ++
      rlpNat p.expire).length < 256 ^ 8 := by
    simp only [List.length_append]
    rw [pow_256_8_eq]
    omega
  have hh := Header.decode_rlpList (rlpNat 4 ++ nodeEndpointEncode p.from_ ++
    nodeEndpointEncode p.to_ ++ rlpNat p.expire) [1] hp8
  have h1 := decodeNatMax_rt 4 4 (nodeEndpointEncode p.from_ ++
    (nodeEndpointEncode p.to_ ++ (rlpNat p.expire ++ [1]))) (by norm_num) (by omega)
  have h2 := nodeEndpointDecode_rt p.from_
    (nodeEndpointEncode p.to_ ++ (rlpNat p.expire ++ [1])) hf
  have h3 := nodeEndpointDecode_rt p.to_ (rlpNat p.expire ++ [1]) ht
  have h4 := decodeNatMax_rt 8 p.expire [1] (by rw [← two_pow_64_eq]; omega) (by omega)
  have h5 : decodeNatMax 8 [1] = .ok (1, []) := by decide
  simp only [List.append_assoc, List.length_append] at hh
  simp only [pingDecode, pingEncode, pingPayload, hn, List.append_assoc, List.append_nil,
    hh, h1, h2, h3, h4, h5, Bind.bind, Except.bind, pure, Except.pure, Bool.not_true,
    Bool.false_eq_true, if_false, List.length_append, not_true, List.isEmpty_cons,
    List.length_nil, List.length_cons]
  split
  · simp only [throw, throwThe, MonadExceptOf.throw, Except.error.injEq,
      DecodeError.listLengthMismatch.injEq]
    refine ⟨trivial, ?_⟩
    omega
  · rename_i hcond
    exact absurd (by omega) hcond

/-- A Ping buffer whose list header declares only the four required fields
while a fifth element follows inside the buffer. -/
def pingTruncatedHeaderBytes (p : Ping) (s : Nat) : List Nat :=
  rlpList (rlpNat 4 ++ nodeEndpointEncode p.from_ ++ nodeEndpointEncode p.to_ ++
    rlpNat p.expire) ++ rlpNat s

theorem pingDecode_truncated (p : Ping) (s : Nat) (hwf : p.wf = true) (hs : s < 2 ^ 64) :
    pingDecode (pingTruncatedHeaderBytes p s) =
      .error (.listLengthMismatch
        (rlpNat 4 ++ nodeEndpointEncode p.from_ ++ nodeEndpointEncode p.to_ ++
          rlpNat p.expire).length
        ((rlpNat 4 ++ nodeEndpointEncode p.from_ ++ nodeEndpointEncode p.to_ ++
          rlpNat p.expire).length + (rlpNat s).length)) := by
  simp only [Ping.wf, Bool.and_eq_true, decide_eq_true_eq] at hwf
  obtain ⟨⟨⟨hf, ht⟩, hex⟩, -⟩ := hwf
  have hfl := nodeEndpointEncode_le p.from_ hf
  have htl := nodeEndpointEncode_le p.to_ ht
  have hexl := u64_rlp_le p.expire hex
  have hvl : (rlpNat 4).length = 1 := by decide
  have hsp := rlpNat_length_pos s
  have hp8 : (rlpNat 4 ++ nodeEndpointEncode p.from_ ++ nodeEndpointEncode p.to_ ++
      rlpNat p.expire).length < 256 ^ 8 := by
    simp only [List.length_append]
    rw [pow_256_8_eq]
    omega
  have hh := Header.decode_rlpList (rlpNat 4 ++ nodeEndpointEncode p.from_ ++
    nodeEndpointEncode p.to_ ++ rlpNat p.expire) (rlpNat s) hp8
  have h1 := decodeNatMax_rt 4 4 (nodeEndpointEncode p.from_ ++
    (nodeEndpointEncode p.to_ ++ (rlpNat p.expire ++ rlpNat s))) (by norm_num) (by omega)
  have h2 := nodeEndpointDecode_rt p.from_
    (nodeEndpointEncode p.to_ ++ (rlpNat p.expire ++ rlpNat s)) hf
  have h3 := nodeEndpointDecode_rt p.to_ (rlpNat p.expire ++ rlpNat s) ht
  have h4 := decodeNatMax_rt 8 p.expire (rlpNat s) (by rw [← two_pow_64_eq]; omega) (by omega)
  have h5 : decodeNatMax 8 (rlpNat s) = .ok (s, []) := by
    have := decodeNatMax_rt 8 s [] (by rw [← two_pow_64_eq]; omega) (by omega)
    simpa using this
  have hemp : (rlpNat s).isEmpty = false := by
    have := append_isEmpty_false (rlpNat s) [] (rlpNat_length_pos s)
    simpa using this
  simp only [List.append_assoc, List.length_append] at hh
  simp only [pingDecode, pingTruncatedHeaderBytes, List.append_assoc, hh, h1, h2, h3, h4,
    h5, hemp, Bind.bind, Except.bind, pure, Except.pure, Bool.not_true, Bool.false_eq_true,
    if_false, List.length_append, not_true, List.length_nil]
  split
  · simp only [throw, throwThe, MonadExceptOf.throw, Except.error.injEq,
      DecodeError.listLengthMismatch.injEq]
    refine ⟨trivial, ?_⟩
    omega
  · rename_i hcond
    exact absurd (by omega) hcond

/-- A Pong list body as laid out on the wire, with arbitrary extra bytes
inside the declared list payload. -/
def pongListBytes (p : Pong) (junk : List Nat) : List Nat :=
  rlpList (nodeEndpointEncode p.to_ ++ rlpString p.echo ++ rlpNat p.expire ++
    (match p.enr_sq with
     | some s => rlpNat s
     | none => []) ++ junk)

theorem pongEncode_eq_listBytes (p : Pong) : pongEncode p = pongListBytes p [] := by
  simp [pongEncode, pongListBytes, pongPayload]

theorem pongDecode_some (p : Pong) (s : Nat) (junk t : List Nat)
    (hwf : p.wf = true) (hs : p.enr_sq = some s) (hj : junk.length < 2 ^ 32) :
    pongDecode (pongListBytes p junk ++ t) = .ok (p, t) := by
  simp only [Pong.wf, hs, Bool.and_eq_true, decide_eq_true_eq, beq_iff_eq] at hwf
  obtain ⟨⟨⟨⟨ht, hel⟩, -⟩, hex⟩, hsv⟩ := hwf
  have htl := nodeEndpointEncode_le p.to_ ht
  have hecl := rlpString_length_32 p.echo hel
  have hexl := u64_rlp_le p.expire hex
  have hsl := u64_rlp_le s hsv
  have hp8 : (nodeEndpointEncode p.to_ ++ rlpString p.echo ++ rlpNat p.expire ++
      rlpNat s ++ junk).length < 256 ^ 8 := by
    simp only [List.length_append]
    rw [pow_256_8_eq]
    omega
  have hh := Header.decode_rlpList (nodeEndpointEncode p.to_ ++ rlpString p.echo ++
    rlpNat p.expire ++ rlpNat s ++ junk) t hp8
  have h1 := nodeEndpointDecode_rt p.to_
    (rlpString p.echo ++ (rlpNat p.expire ++ (rlpNat s ++ (junk ++ t)))) ht
  have h2 := decodeFixed_rt p.echo (rlpNat p.expire ++ (rlpNat s ++ (junk ++ t))) 32 hel
    (by omega) (by rw [pow_256_8_eq]; omega)
  have h3 := decodeNatMax_rt 8 p.expire (rlpNat s ++ (junk ++ t))
    (by rw [← two_pow_64_eq]; omega) (by omega)
  have h4 := decodeNatMax_rt 8 s (junk ++ t) (by rw [← two_pow_64_eq]; omega) (by omega)
  have hemp := append_isEmpty_false (rlpNat s) (junk ++ t) (rlpNat_length_pos s)
  have hX : ({ to_ := p.to_, echo := p.echo, expire := p.expire, enr_sq := some s } : Pong)
      = p := by
    obtain ⟨t_, ec, ex, es⟩ := p
    simp only at hs
    rw [hs]
  simp only [List.append_assoc] at hh
  simp only [pongDecode, pongListBytes, hs, List.append_assoc, hh, h1, h2, h3, h4,
    hemp, Bind.bind, Except.bind, pure, Except.pure, Bool.not_true, Bool.false_eq_true,
    if_false, List.length_append, not_true]
  split
  · rename_i hcond
    exact absurd hcond (by omega)
  · rw [hX]
    simp only [Except.ok.injEq, Prod.mk.injEq, true_and]
    exact drop_append_full junk t _ (by omega)

theorem pongDecode_none (p : Pong) (hwf : p.wf = true) (hn : p.enr_sq = none) :
    pongDecode (pongListBytes p []) = .ok (p, []) := by
  simp only [Pong.wf, hn, Bool.and_eq_true, decide_eq_true_eq, beq_iff_eq] at hwf
  obtain ⟨⟨⟨⟨ht, hel⟩, -⟩, hex⟩, -⟩ := hwf
  have htl := nodeEndpointEncode_le p.to_ ht
  have hecl := rlpString_length_32 p.echo hel
  have hexl := u64_rlp_le p.expire hex
  have hp8 : (nodeEndpointEncode p.to_ ++ rlpString p.echo ++ rlpNat p.expire).length
      < 256 ^ 8 := by
    simp only [List.length_append]
    rw [pow_256_8_eq]
    omega
  have hh := Header.decode_rlpList (nodeEndpointEncode p.to_ ++ rlpString p.echo ++
    rlpNat p.expire) [] hp8
  have h1 := nodeEndpointDecode_rt p.to_ (rlpString p.echo ++ rlpNat p.expire) ht
  have h2 := decodeFixed_rt p.echo (rlpNat p.expire) 32 hel (by omega)
    (by rw [pow_256_8_eq]; omega)
  have h3 := decodeNatMax_rt 8 p.expire [] (by rw [← two_pow_64_eq]; omega) (by omega)
  have hX : ({ to_ := p.to_, echo := p.echo, expire := p.expire, enr_sq := none } : Pong)
      = p := by
    obtain ⟨t_, ec, ex, es⟩ := p
    simp only at hn
    rw [hn]
  simp only [List.append_assoc, List.append_nil] at hh h1 h2 h3
  simp only [pongDecode, pongListBytes, hn, List.append_assoc, List.append_nil, hh,
    h1, h2, h3, Bind.bind, Except.bind, pure, Except.pure, Bool.not_true,
    Bool.false_eq_true, if_false, List.length_append, List.isEmpty_nil, if_true,
    List.length_nil, not_true]
  split
  · rename_i hcond
    exact absurd hcond (by omega)
  · rw [hX]
    simp

theorem pongDecode_none_trailing (p : Pong) (hwf : p.wf = true) (hn : p.enr_sq = none) :
    pongDecode (pongEncode p ++ [1]) =
      .error (.listLengthMismatch (pongPayload p).length ((pongPayload p).length + 1)) := by
  simp only [Pong.wf, hn, Bool.and_eq_true, decide_eq_true_eq, beq_iff_eq] at hwf
  obtain ⟨⟨⟨⟨ht, hel⟩, -⟩, hex⟩, -⟩ := hwf
  have htl := nodeEndpointEncode_le p.to_ ht
  have hecl := rlpString_length_32 p.echo hel
  have hexl := u64_rlp_le p.expire hex
  have hp8 : (nodeEndpointEncode p.to_ ++ rlpString p.echo ++ rlpNat p.expire).length
      < 256 ^ 8 := by
    simp only [List.length_append]
    rw [pow_256_8_eq]
    omega
  have hh := Header.decode_rlpList (nodeEndpointEncode p.to_ ++ rlpString p.echo ++
    rlpNat p.expire) [1] hp8
  have h1 := nodeEndpointDecode_rt p.to_
    (rlpString p.echo ++ (rlpNat p.expire ++ [1])) ht
  have h2 := decodeFixed_rt p.echo (rlpNat p.expire ++ [1]) 32 hel (by omega)
    (by rw [pow_256_8_eq]; omega)
  have h3 := decodeNatMax_rt 8 p.expire [1] (by rw [← two_pow_64_eq]; omega) (by omega)
  have h5 : decodeNatMax 8 [1] = .ok (1, []) := by decide
  simp only [List.append_assoc, List.length_append] at hh
  simp only [pongDecode, pongEncode, pongPayload, hn, List.append_assoc, List.append_nil,
    hh, h1, h2, h3, h5, Bind.bind, Except.bind, pure, Except.pure, Bool.not_true,
    Bool.false_eq_true, if_false, List.length_append, not_true, List.isEmpty_cons,
    List.length_nil, List.length_cons]
  split
  · simp only [throw, throwThe, MonadExceptOf.throw, Except.error.injEq,
      DecodeError.listLengthMismatch.injEq]
    refine ⟨trivial, ?_⟩
    omega
  · rename_i hcond
    exact absurd (by omega) hcond

/-- A Pong buffer whose list header declares only the three required fields
while a fourth element follows inside the buffer. -/
def pongTruncatedHeaderBytes (p : Pong) (s : Nat) : List Nat :=
  rlpList (nodeEndpointEncode p.to_ ++ rlpString p.echo ++ rlpNat p.expire) ++ rlpNat s

theorem pongDecode_truncated (p : Pong) (s : Nat) (hwf : p.wf = true) (hs : s < 2 ^ 64) :
    pongDecode (pongTruncatedHeaderBytes p s) =
      .error (.listLengthMismatch
        (nodeEndpointEncode p.to_ ++ rlpString p.echo ++ rlpNat p.expire).length
        ((nodeEndpointEncode p.to_ ++ rlpString p.echo ++ rlpNat p.expire).length +
          (rlpNat s).length)) := by
  simp only [Pong.wf, Bool.and_eq_true, decide_eq_true_eq, beq_iff_eq] at hwf
  obtain ⟨⟨⟨⟨ht, hel⟩, -⟩, hex⟩, -⟩ := hwf
  have htl := nodeEndpointEncode_le p.to_ ht
  have hecl := rlpString_length_32 p.echo hel
  have hexl := u64_rlp_le p.expire hex
  have hsp := rlpNat_length_pos s
  have hp8 : (nodeEndpointEncode p.to_ ++ rlpString p.echo ++ rlpNat p.expire).length
      < 256 ^ 8 := by
    simp only [List.length_append]
    rw [pow_256_8_eq]
    omega
  have hh := Header.decode_rlpList (nodeEndpointEncode p.to_ ++ rlpString p.echo ++
    rlpNat p.expire) (rlpNat s) hp8
  have h1 := nodeEndpointDecode_rt p.to_
    (rlpString p.echo ++ (rlpNat p.expire ++ rlpNat s)) ht
  have h2 := decodeFixed_rt p.echo (rlpNat p.expire ++ rlpNat s) 32 hel (by omega)
    (by rw [pow_256_8_eq]; omega)
  have h3 := decodeNatMax_rt 8 p.expire (rlpNat s) (by rw [← two_pow_64_eq]; omega) (by omega)
  have h5 : decodeNatMax 8 (rlpNat s) = .ok (s, []) := by
    have := decodeNatMax_rt 8 s [] (by rw [← two_pow_64_eq]; omega) (by omega)
    simpa using this
  have hemp : (rlpNat s).isEmpty = false := by
    have := append_isEmpty_false (rlpNat s) [] (rlpNat_length_pos s)
    simpa using this
  simp only [List.append_assoc, List.length_append] at hh
  simp only [pongDecode, pongTruncatedHeaderBytes, List.append_assoc, hh, h1, h2, h3,
    h5, hemp, Bind.bind, Except.bind, pure, Except.pure, Bool.not_true, Bool.false_eq_true,
    if_false, List.length_append, not_true, List.length_nil]
  split
  · simp only [throw, throwThe, MonadExceptOf.throw, Except.error.injEq,
      DecodeError.listLengthMismatch.injEq]
    refine ⟨trivial, ?_⟩
    omega
  · rename_i hcond
    exact absurd (by omega) hcond

/-! ## ENR round trip -/

theorem rlpString_length_ge_self (s : List Nat) : s.length ≤ (rlpString s).length := by
  match s with
  | [] => simp
  | [b] =>
    simp only [rlpString]
    split <;> simp
  | a :: c :: r =>
    have := lengthHeader_length_pos 0x80 (a :: c :: r).length
    simp only [rlpString, List.length_append]
    omega

theorem headerLongLen_suffix_length (isList : Bool) (lol : Nat) (r : List Nat) (h : Header)
    (b : List Nat) (_hlol : 1 ≤ lol) (hd : headerLongLen isList lol r = .ok (h, b)) :
    b.length ≤ r.length ∧ h.payload_length ≤ b.length := by
  unfold headerLongLen headerCheckLen at hd
  split at hd
  · exact absurd hd (by simp)
  · split at hd
    · exact absurd hd (by simp)
    · split at hd
      · exact absurd hd (by simp)
      · split at hd
        · exact absurd hd (by simp)
        · rename_i h1 h2 h3 h4
          obtain ⟨rfl, rfl⟩ := ok_pair_inj hd
          have h4' : ¬ (List.drop lol r).length < beVal (List.take lol r) := h4
          refine ⟨by simp, ?_⟩
          show beVal (r.take lol) ≤ (r.drop lol).length
          omega

theorem Header.decode_suffix_length (v : List Nat) (h : Header) (b : List Nat)
    (hd : Header.decode v = .ok (h, b)) :
    b.length ≤ v.length ∧ h.payload_length ≤ b.length := by
  match v with
  | [] => simp [Header.decode] at hd
  | x :: r =>
    simp only [Header.decode] at hd
    by_cases c1 : x < 0x80
    · simp only [c1, if_true, headerCheckLen] at hd
      have h0 : ¬ (x :: r).length < 1 := by simp
      simp only [h0, if_false] at hd
      obtain ⟨rfl, rfl⟩ := ok_pair_inj hd
      simp
    · simp only [c1, if_false] at hd
      by_cases c2 : x < 0xB8
      · simp only [c2, if_true] at hd
        by_cases c3 : x - 0x80 = 1
        · simp only [c3, if_true] at hd
          match r with
          | [] => simp at hd
          | y :: r' =>
            by_cases c4 : y < 0x80
            · simp [c4] at hd
            · simp only [c4, if_false, headerCheckLen] at hd
              have h0 : ¬ (y :: r').length < 1 := by simp
              simp only [h0, if_false] at hd
              obtain ⟨rfl, rfl⟩ := ok_pair_inj hd
              simp
        · simp only [c3, if_false, headerCheckLen] at hd
          by_cases c5 : r.length < x - 0x80
          · simp [c5] at hd
          · simp only [c5, if_false] at hd
            obtain ⟨rfl, rfl⟩ := ok_pair_inj hd
            refine ⟨by simp, ?_⟩
            show x - 0x80 ≤ r.length
            omega
      · simp only [c2, if_false] at hd
        by_cases c6 : x < 0xC0
        · simp only [c6, if_true] at hd
          have hsl := headerLongLen_suffix_length false (x - 0xB7) r h b (by omega) hd
          exact ⟨le_trans hsl.1 (by simp), hsl.2⟩
        · simp only [c6, if_false] at hd
          by_cases c7 : x < 0xF8
          · simp only [c7, if_true, headerCheckLen] at hd
            by_cases c8 : r.length < x - 0xC0
            · simp [c8] at hd
            · simp only [c8, if_false] at hd
              obtain ⟨rfl, rfl⟩ := ok_pair_inj hd
              refine ⟨by simp, ?_⟩
              show x - 0xC0 ≤ r.length
              omega
          · simp only [c7, if_false] at hd
            have hsl := headerLongLen_suffix_length true (x - 0xF7) r h b (by omega) hd
            exact ⟨le_trans hsl.1 (by simp), hsl.2⟩

theorem rawItemDecode_rt (v t : List Nat) (hs : singleRlpItem v = true) :
    rawItemDecode (v ++ t) = .ok (v, t) := by
  unfold singleRlpItem at hs
  rcases hd : Header.decode v with e | ⟨h, b⟩
  · rw [hd] at hs
    simp at hs
  · rw [hd] at hs
    simp only [beq_iff_eq] at hs
    have hlen := Header.decode_suffix_length v h b hd
    have ha := Header.decode_append v t h b hd
    have hE : (v ++ t).length - (b ++ t).length + h.payload_length = v.length := by
      simp only [List.length_append]
      omega
    simp only [rawItemDecode, ha, Bind.bind, Except.bind, pure, Except.pure, hE,
      List.take_left, List.drop_left]

/-- The wire bytes of the key/value pair section of an ENR. -/
def pairsBytes (ps : List (List Nat × List Nat)) : List Nat :=
  (ps.map (fun kv => rlpString kv.1 ++ kv.2)).flatten

theorem pairsBytes_length (ps : List (List Nat × List Nat)) :
    (pairsBytes ps).length = (ps.map (fun kv => (rlpString kv.1).length + kv.2.length)).sum := by
  induction ps with
  | nil => simp [pairsBytes]
  | cons kv rest ih =>
    simp only [pairsBytes, List.map_cons, List.flatten_cons, List.length_append,
      List.sum_cons] at ih ⊢
    omega

/-- Well-formedness of one ENR pair: byte-ranged key and a raw value that is
one complete RLP item. -/
def pairWf (kv : List Nat × List Nat) : Bool :=
  kv.1.all (fun b => decide (b < 256)) && kv.2.all (fun b => decide (b < 256)) &&
    singleRlpItem kv.2

theorem decodePairs_rt (ps : List (List Nat × List Nat)) (fuel : Nat)
    (hwf : ps.all pairWf = true)
    (h8 : (pairsBytes ps).length < 256 ^ 8)
    (hfuel : (pairsBytes ps).length ≤ fuel) :
    decodePairs fuel (pairsBytes ps) = .ok ps := by
  induction ps generalizing fuel with
  | nil =>
    rcases fuel with _ | f <;> simp [decodePairs, pairsBytes]
  | cons kv rest ih =>
    simp only [List.all_cons, Bool.and_eq_true] at hwf
    obtain ⟨hkv, hrest⟩ := hwf
    simp only [pairWf, Bool.and_eq_true] at hkv
    obtain ⟨-, hitem⟩ := hkv
    have hkb : (pairsBytes (kv :: rest)) = rlpString kv.1 ++ (kv.2 ++ pairsBytes rest) := by
      simp [pairsBytes, List.append_assoc]
    have hk8 : kv.1.length < 256 ^ 8 := by
      have h1 := rlpString_length_ge_self kv.1
      rw [hkb] at h8
      simp only [List.length_append] at h8
      omega
    have hkey := decodeBytesStr_rt kv.1 (kv.2 ++ pairsBytes rest) hk8
    have hval := rawItemDecode_rt kv.2 (pairsBytes rest) hitem
    rcases henc : rlpString kv.1 with _ | ⟨x, xr⟩
    · exact absurd henc (rlpString_ne_nil kv.1)
    rw [hkb] at hfuel h8 ⊢
    rw [henc] at hkey hfuel h8 ⊢
    rcases fuel with _ | f
    · simp at hfuel
    have hlen8 : (pairsBytes rest).length < 256 ^ 8 := by
      simp only [List.cons_append, List.length_cons, List.length_append] at h8
      omega
    have hlenf : (pairsBytes rest).length ≤ f := by
      simp only [List.cons_append, List.length_cons, List.length_append] at hfuel
      omega
    have hih := ih f hrest hlen8 hlenf
    simp only [List.cons_append] at hkey ⊢
    simp only [decodePairs, hkey, hval, hih, Bind.bind, Except.bind]

theorem enrContent_length (e : Enr) : (enrContent e).length = enrPayloadLength e := by
  simp only [enrContent, enrPayloadLength, List.length_append]
  have := pairsBytes_length e.pairs
  simp only [pairsBytes] at this
  omega

theorem enrWrapperEncode_eq_rlpList (e : Enr) :
    enrWrapperEncode e = rlpList (enrContent e) := by
  simp only [enrWrapperEncode, rlpList, enrContent_length]

theorem enrWrapperDecode_rt (e : Enr) (t : List Nat) (hwf : e.wf = true) :
    enrWrapperDecode (enrWrapperEncode e ++ t) = .ok (e, t) := by
  simp only [Enr.wf, Bool.and_eq_true, decide_eq_true_eq] at hwf
  obtain ⟨⟨⟨⟨hsig, hseq⟩, hpairs⟩, -⟩, hbound⟩ := hwf
  have hcl := enrContent_length e
  have h8 : (enrContent e).length < 256 ^ 8 := by
    rw [hcl, pow_256_8_eq]
    rw [two_pow_32_eq] at hbound
    omega
  have hsig8 : e.signature.length < 256 ^ 8 := by
    have h1 := rlpString_length_ge_self e.signature
    simp only [enrContent, List.length_append] at h8
    omega
  have hpb8 : (pairsBytes e.pairs).length < 256 ^ 8 := by
    simp only [enrContent, List.length_append] at h8
    simp only [pairsBytes]
    omega
  have hh := Header.decode_rlpList (enrContent e) t h8
  have hsd := decodeBytesStr_rt e.signature (rlpNat e.seq ++ pairsBytes e.pairs) hsig8
  have hqd := decodeNatMax_rt 8 e.seq (pairsBytes e.pairs)
    (by rw [← two_pow_64_eq]; omega) (by omega)
  have hpd := decodePairs_rt e.pairs (pairsBytes e.pairs).length
    (by
      rw [List.all_eq_true] at hpairs ⊢
      intro kv hkv
      have := hpairs kv hkv
      simpa [pairWf] using this)
    hpb8 (le_refl _)
  have hview : (enrContent e ++ t).take (enrContent e).length = enrContent e :=
    List.take_left _ _
  have hdrop : (enrContent e ++ t).drop (enrContent e).length = t :=
    List.drop_left _ _
  have hcontent : enrContent e =
      rlpString e.signature ++ (rlpNat e.seq ++ pairsBytes e.pairs) := by
    simp [enrContent, pairsBytes, List.append_assoc]
  rw [enrWrapperEncode_eq_rlpList]
  simp only [enrWrapperDecode, enrRlpDecode, hh, Bind.bind, Except.bind, Bool.not_true,
    Bool.false_eq_true, if_false, not_true, hview, hdrop, pure, Except.pure]
  rw [hcontent]
  simp only [hsd, hqd, hpd, Bind.bind, Except.bind]

/-! ## EnrResponse round trip -/

theorem enrWrapperEncode_length_le (e : Enr) (hwf : e.wf = true) :
    (enrWrapperEncode e).length ≤ enrPayloadLength e + 9 := by
  simp only [Enr.wf, Bool.and_eq_true, decide_eq_true_eq] at hwf
  have hbound := hwf.2
  have := lengthHeader_length_le 0xC0 (enrPayloadLength e) 8
    (by rw [← two_pow_64_eq, two_pow_32_eq] at *; omega)
  simp only [enrWrapperEncode, List.length_append, enrContent_length]
  omega

theorem enrResponseDecode_rt (r : EnrResponse) (t : List Nat) (hwf : r.wf = true) :
    enrResponseDecode (enrResponseEncode r ++ t) = .ok (r, t) := by
  have hwf' := hwf
  simp only [EnrResponse.wf, Bool.and_eq_true, decide_eq_true_eq, beq_iff_eq] at hwf'
  obtain ⟨⟨hrh, -⟩, henr⟩ := hwf'
  have hrl := rlpString_length_32 r.request_hash hrh
  have hel := enrWrapperEncode_length_le r.enr henr
  have hbound : enrPayloadLength r.enr < 2 ^ 32 := by
    have h := henr
    simp only [Enr.wf, Bool.and_eq_true, decide_eq_true_eq] at h
    exact h.2
  have hp8 : (enrResponsePayload r).length < 256 ^ 8 := by
    simp only [enrResponsePayload, List.length_append]
    rw [pow_256_8_eq]
    rw [two_pow_32_eq] at hbound
    omega
  have hh := Header.decode_rlpList (enrResponsePayload r) t hp8
  have h1 := decodeFixed_rt r.request_hash (enrWrapperEncode r.enr ++ t) 32 hrh (by omega)
    (by rw [pow_256_8_eq]; omega)
  have h2 := enrWrapperDecode_rt r.enr t henr
  simp only [enrResponsePayload, List.append_assoc] at hh
  simp only [enrResponseDecode, enrResponseEncode, enrResponsePayload, List.append_assoc,
    hh, h1, h2, Bind.bind, Except.bind, pure, Except.pure, Bool.not_true,
    Bool.false_eq_true, if_false, not_true]

/-! ## Message envelope round trip -/

/-- The `MessageId` of a message value. -/
def Message.msgId : Message → MessageId
  | .ping _ => .ping
  | .pong _ => .pong
  | .findNode _ => .findNode
  | .neighbours _ => .neighbours
  | .enrRequest _ => .enrRequest
  | .enrResponse _ => .enrResponse

theorem from_u8_typeByte (m : Message) :
    MessageId.from_u8 m.typeByte = .ok m.msgId := by
  cases m <;> rfl

theorem decodeMsgBody_rt (m : Message) (hwf : m.wf = true) :
    decodeMsgBody m.msgId m.body = .ok m := by
  cases m with
  | ping p =>
    simp only [Message.wf] at hwf
    rcases hsq : p.enr_sq with _ | s
    · have := pingDecode_none 4 p (by norm_num) hwf hsq
      rw [← pingEncode_eq_listBytes] at this
      simp [decodeMsgBody, Message.msgId, Message.body, this, Bind.bind, Except.bind,
        pure, Except.pure]
    · have := pingDecode_some 4 p s [] [] (by norm_num) hwf hsq (by norm_num)
      simp only [List.append_nil] at this
      rw [← pingEncode_eq_listBytes] at this
      simp [decodeMsgBody, Message.msgId, Message.body, this, Bind.bind, Except.bind,
        pure, Except.pure]
  | pong p =>
    simp only [Message.wf] at hwf
    rcases hsq : p.enr_sq with _ | s
    · have := pongDecode_none p hwf hsq
      rw [← pongEncode_eq_listBytes] at this
      simp [decodeMsgBody, Message.msgId, Message.body, this, Bind.bind, Except.bind,
        pure, Except.pure]
    · have := pongDecode_some p s [] [] hwf hsq (by norm_num)
      simp only [List.append_nil] at this
      rw [← pongEncode_eq_listBytes] at this
      simp [decodeMsgBody, Message.msgId, Message.body, this, Bind.bind, Except.bind,
        pure, Except.pure]
  | findNode f =>
    simp only [Message.wf] at hwf
    have := findNodeDecode_rt f [] hwf
    simp only [List.append_nil] at this
    simp [decodeMsgBody, Message.msgId, Message.body, this, Bind.bind, Except.bind,
      pure, Except.pure]
  | neighbours n =>
    simp only [Message.wf] at hwf
    have := neighboursDecode_rt n [] hwf
    simp only [List.append_nil] at this
    simp [decodeMsgBody, Message.msgId, Message.body, this, Bind.bind, Except.bind,
      pure, Except.pure]
  | enrRequest e =>
    simp only [Message.wf] at hwf
    have := enrRequestDecode_rt e [] hwf
    simp only [List.append_nil] at this
    simp [decodeMsgBody, Message.msgId, Message.body, this, Bind.bind, Except.bind,
      pure, Except.pure]
  | enrResponse r =>
    simp only [Message.wf] at hwf
    have := enrResponseDecode_rt r [] hwf
    simp only [List.append_nil] at this
    simp [decodeMsgBody, Message.msgId, Message.body, this, Bind.bind, Except.bind,
      pure, Except.pure]

/-- The signed payload: the type byte followed by the RLP body. -/
def signedPayload (m : Message) : List Nat :=
  m.typeByte :: m.body

/-- The suffix of the datagram covered by the envelope hash:
signature, recovery id, type byte, RLP body. -/
def sigBytes (S : Secp) (m : Message) (sk : S.SecretKey) : List Nat :=
  (S.sign (S.keccak (signedPayload m)) sk).1 ++
    ((S.sign (S.keccak (signedPayload m)) sk).2 % 256) :: signedPayload m

theorem Message.encode_eq (S : Secp) (m : Message) (sk : S.SecretKey) :
    Message.encode S m sk =
      (S.keccak (sigBytes S m sk) ++ sigBytes S m sk, S.keccak (sigBytes S m sk)) := rfl

theorem sigBytes_length (S : Secp) (m : Message) (sk : S.SecretKey) :
    (sigBytes S m sk).length = 66 + m.body.length := by
  simp only [sigBytes, List.length_append, List.length_cons, S.sign_sig_len,
    signedPayload]
  omega

theorem encode_drop32 (S : Secp) (m : Message) (sk : S.SecretKey) :
    (Message.encode S m sk).1.drop 32 = sigBytes S m sk := by
  rw [Message.encode_eq]
  exact List.drop_left' (S.keccak_len _)

theorem encode_take32 (S : Secp) (m : Message) (sk : S.SecretKey) :
    (Message.encode S m sk).1.take 32 = S.keccak (sigBytes S m sk) := by
  rw [Message.encode_eq]
  exact List.take_left' (S.keccak_len _)

theorem encode_length (S : Secp) (m : Message) (sk : S.SecretKey) :
    (Message.encode S m sk).1.length = 98 + m.body.length := by
  rw [Message.encode_eq]
  simp only [List.length_append, S.keccak_len, sigBytes_length]
  omega

theorem encode_getD96 (S : Secp) (m : Message) (sk : S.SecretKey) :
    (Message.encode S m sk).1.getD 96 0 = (S.sign (S.keccak (signedPayload m)) sk).2 := by
  rw [Message.encode_eq]
  rw [List.getD_append_right _ _ _ _ (by rw [S.keccak_len]; omega), S.keccak_len]
  show (sigBytes S m sk).getD 64 0 = _
  rw [sigBytes, List.getD_append_right _ _ _ _ (by simp [S.sign_sig_len]),
    S.sign_sig_len]
  show (((S.sign (S.keccak (signedPayload m)) sk).2 % 256) :: signedPayload m).getD 0 0 = _
  rw [List.getD_cons_zero]
  exact Nat.mod_eq_of_lt (lt_trans (S.sign_rec_lt _ _) (by omega))

theorem encode_drop97 (S : Secp) (m : Message) (sk : S.SecretKey) :
    (Message.encode S m sk).1.drop 97 = signedPayload m := by
  have h1 : (Message.encode S m sk).1.drop 97 =
      (((Message.encode S m sk).1.drop 32).drop 64).drop 1 := by
    rw [List.drop_drop, List.drop_drop]
  rw [h1, encode_drop32]
  rw [sigBytes, List.drop_left' (S.sign_sig_len _ _)]
  simp

theorem encode_drop98 (S : Secp) (m : Message) (sk : S.SecretKey) :
    (Message.encode S m sk).1.drop 98 = m.body := by
  have h1 : (Message.encode S m sk).1.drop 98 = ((Message.encode S m sk).1.drop 97).drop 1 := by
    rw [List.drop_drop]
  rw [h1, encode_drop97]
  simp [signedPayload]

theorem encode_getD97 (S : Secp) (m : Message) (sk : S.SecretKey) :
    (Message.encode S m sk).1.getD 97 0 = m.typeByte := by
  rw [Message.encode_eq]
  rw [List.getD_append_right _ _ _ _ (by rw [S.keccak_len]; omega), S.keccak_len]
  show (sigBytes S m sk).getD 65 0 = _
  rw [sigBytes, List.getD_append_right _ _ _ _ (by simp [S.sign_sig_len]),
    S.sign_sig_len]
  show (((S.sign (S.keccak (signedPayload m)) sk).2 % 256) :: signedPayload m).getD 1 0 = _
  simp [signedPayload]

theorem encode_sig64 (S : Secp) (m : Message) (sk : S.SecretKey) :
    ((Message.encode S m sk).1.drop 32).take 64 =
      (S.sign (S.keccak (signedPayload m)) sk).1 := by
  rw [encode_drop32, sigBytes]
  exact List.take_left' (S.sign_sig_len _ _)

/-- Core envelope round trip: decoding an encoded message yields the message,
the signer-derived node id, and the envelope hash. -/
theorem encode_decode (S : Secp) (m : Message) (sk : S.SecretKey) (hwf : m.wf = true) :
    Message.decode S (Message.encode S m sk).1 =
      .ok { msg := m, node_id := (S.serializeUncompressed (S.pubkeyOf sk)).drop 1,
            hash := (Message.encode S m sk).2 } := by
  have hlen : ¬ (Message.encode S m sk).1.length < MIN_PACKET_SIZE := by
    rw [encode_length]
    simp [MIN_PACKET_SIZE]
  have hhash : (Message.encode S m sk).1.take 32 =
      S.keccak ((Message.encode S m sk).1.drop 32) := by
    rw [encode_take32, encode_drop32]
  have hsnd : (Message.encode S m sk).2 = S.keccak (sigBytes S m sk) := rfl
  unfold Message.decode
  rw [if_neg hlen, if_neg (by simp [hhash]), encode_drop32, ← hsnd]
  unfold Message.decodePayload
  rw [encode_getD96]
  have hrid : recIdFromI32 (S.sign (S.keccak (signedPayload m)) sk).2 =
      some (S.sign (S.keccak (signedPayload m)) sk).2 := by
    unfold recIdFromI32
    rw [if_pos (S.sign_rec_lt _ _)]
  rw [hrid]
  simp only [encode_sig64, encode_drop97, encode_getD97, encode_drop98,
    S.sign_fromCompact, S.recover_sign, from_u8_typeByte, decodeMsgBody_rt m hwf,
    Bool.not_true, Bool.false_eq_true, if_false, not_true]

/-! ## Structure of `Message.decode` on arbitrary packets -/

theorem decodePayload_ne_hashMismatch (S : Secp) (packet header_hash : List Nat) :
    Message.decodePayload S packet header_hash ≠ .error .hashMismatch := by
  unfold Message.decodePayload
  split
  · simp
  · split
    · simp
    · split
      · simp
      · split
        · simp
        · split
          · simp
          · simp

theorem decodePayload_ne_packetTooShort (S : Secp) (packet header_hash : List Nat) :
    Message.decodePayload S packet header_hash ≠ .error .packetTooShort := by
  unfold Message.decodePayload
  split
  · simp
  · split
    · simp
    · split
      · simp
      · split
        · simp
        · split
          · simp
          · simp

theorem decode_eq_decodePayload (S : Secp) (packet : List Nat)
    (hlen : MIN_PACKET_SIZE ≤ packet.length)
    (hhash : packet.take 32 = S.keccak (packet.drop 32)) :
    Message.decode S packet = Message.decodePayload S packet (S.keccak (packet.drop 32)) := by
  unfold Message.decode
  rw [if_neg (by omega), if_neg (by simp [hhash])]

/-- When the envelope hash verifies, `HashMismatch` is returned exactly when
it does not — i.e. never. Combined with the positive case this yields the
characterisation of `HashMismatch`. -/
theorem decode_hashMismatch_iff (S : Secp) (packet : List Nat)
    (hlen : MIN_PACKET_SIZE ≤ packet.length) :
    (Message.decode S packet = .error .hashMismatch ↔
      packet.take 32 ≠ S.keccak (packet.drop 32)) := by
  by_cases hc : packet.take 32 = S.keccak (packet.drop 32)
  · rw [decode_eq_decodePayload S packet hlen hc]
    exact iff_of_false (decodePayload_ne_hashMismatch S packet _) (by simp [hc])
  · refine iff_of_true ?_ hc
    unfold Message.decode
    rw [if_neg (by omega), if_pos (by simpa using hc)]

theorem decodePayload_invalidRecId (S : Secp) (packet header_hash : List Nat)
    (h : recIdFromI32 (packet.getD 96 0) = none) :
    Message.decodePayload S packet header_hash = .error (.secp256k1 .invalidRecoveryId) := by
  unfold Message.decodePayload
  rw [h]

theorem decodePayload_invalidSig (S : Secp) (packet header_hash : List Nat) (rid : Nat)
    (h : recIdFromI32 (packet.getD 96 0) = some rid)
    (hfc : S.fromCompact ((packet.drop 32).take 64) = false) :
    Message.decodePayload S packet header_hash = .error (.secp256k1 .invalidSignature) := by
  unfold Message.decodePayload
  rw [h]
  simp [hfc]

theorem decodePayload_recoveryFailed (S : Secp) (packet header_hash : List Nat) (rid : Nat)
    (h : recIdFromI32 (packet.getD 96 0) = some rid)
    (hfc : S.fromCompact ((packet.drop 32).take 64) = true)
    (hrec : S.recover (S.keccak (packet.drop 97)) ((packet.drop 32).take 64) rid = none) :
    Message.decodePayload S packet header_hash = .error (.secp256k1 .recoveryFailed) := by
  unfold Message.decodePayload
  rw [h]
  simp [hfc, hrec]

theorem from_u8_error_eq (x b : Nat) (h : MessageId.from_u8 x = .error b) : b = x := by
  unfold MessageId.from_u8 at h
  split at h <;> simp_all

theorem decodePayload_unknown_elim (S : Secp) (packet header_hash : List Nat) (b : Nat)
    (h : Message.decodePayload S packet header_hash = .error (.unknownMessage b)) :
    b = packet.getD 97 0 ∧ MessageId.from_u8 b = .error b ∧
      ∃ rid pk, recIdFromI32 (packet.getD 96 0) = some rid ∧
        S.fromCompact ((packet.drop 32).take 64) = true ∧
        S.recover (S.keccak (packet.drop 97)) ((packet.drop 32).take 64) rid = some pk := by
  unfold Message.decodePayload at h
  split at h
  · exact absurd h (by simp)
  · rename_i rid hri
    split at h
    · exact absurd h (by simp)
    · rename_i hfc
      have hfc' : S.fromCompact ((packet.drop 32).take 64) = true := not_not.mp hfc
      split at h
      · exact absurd h (by simp)
      · rename_i pk hrec
        split at h
        · rename_i b' hfu
          simp only [Except.error.injEq, DecodePacketError.unknownMessage.injEq] at h
          subst h
          have hbx := from_u8_error_eq (packet.getD 97 0) b' hfu
          subst hbx
          exact ⟨rfl, hfu, rid, pk, hri, hfc', hrec⟩
        · rename_i mid hfu
          split at h
          · exact absurd h (by simp)
          · exact absurd h (by simp)

theorem decodePayload_ok_elim (S : Secp) (packet header_hash : List Nat) (p : Packet)
    (h : Message.decodePayload S packet header_hash = .ok p) :
    p.hash = header_hash ∧
      ∃ rid pk, recIdFromI32 (packet.getD 96 0) = some rid ∧
        S.fromCompact ((packet.drop 32).take 64) = true ∧
        S.recover (S.keccak (packet.drop 97)) ((packet.drop 32).take 64) rid = some pk ∧
        p.node_id = (S.serializeUncompressed pk).drop 1 := by
  unfold Message.decodePayload at h
  split at h
  · exact absurd h (by simp)
  · rename_i rid hri
    split at h
    · exact absurd h (by simp)
    · rename_i hfc
      have hfc' : S.fromCompact ((packet.drop 32).take 64) = true := not_not.mp hfc
      split at h
      · exact absurd h (by simp)
      · rename_i pk hrec
        split at h
        · exact absurd h (by simp)
        · rename_i mid hfu
          split at h
          · exact absurd h (by simp)
          · rename_i msg hbd
            obtain rfl : Packet.mk msg ((S.serializeUncompressed pk).drop 1) header_hash = p := by
              injection h
            exact ⟨rfl, rid, pk, hri, hfc', hrec, rfl⟩

/-! ## Datagram-size bounds for Neighbours -/

/-- Address-family discriminator used to state the datagram-size claim. -/
def IpAddr.isIpv4 : IpAddr → Bool
  | .v4 _ => true
  | .v6 _ => false

theorem ipEncode_v4_eq_five (a : IpAddr) (hwf : a.wf = true) (h4 : a.isIpv4 = true) :
    (ipEncode a).length = 5 := by
  cases a with
  | v4 o =>
    simp only [IpAddr.wf, Bool.and_eq_true, beq_iff_eq] at hwf
    exact ipEncode_v4_length o hwf.1
  | v6 o => simp [IpAddr.isIpv4] at h4

theorem nodeRecordPayload_v4_bounds (r : NodeRecord) (hwf : r.wf = true)
    (h4 : r.address.isIpv4 = true) :
    73 ≤ (nodeRecordPayload r).length ∧ (nodeRecordPayload r).length ≤ 77 := by
  simp only [NodeRecord.wf, Bool.and_eq_true, decide_eq_true_eq, beq_iff_eq] at hwf
  obtain ⟨⟨⟨⟨ha, hu⟩, htc⟩, hid⟩, -⟩ := hwf
  have h5 := ipEncode_v4_eq_five r.address ha h4
  have h2 := port_rlp_le r.udp_port hu
  have h2p := rlpNat_length_pos r.udp_port
  have h3 := port_rlp_le r.tcp_port htc
  have h3p := rlpNat_length_pos r.tcp_port
  have h6 := rlpString_length_64 r.id hid
  simp only [nodeRecordPayload, List.length_append]
  omega

theorem nodeRecordEncode_v4_bounds (r : NodeRecord) (hwf : r.wf = true)
    (h4 : r.address.isIpv4 = true) :
    75 ≤ (nodeRecordEncode r).length ∧ (nodeRecordEncode r).length ≤ 79 := by
  obtain ⟨hlo, hhi⟩ := nodeRecordPayload_v4_bounds r hwf h4
  have hge := lengthHeader_length_ge_two 0xC0 (nodeRecordPayload r).length (by omega)
  have hle := lengthHeader_length_le_two 0xC0 (nodeRecordPayload r).length (by omega)
  simp only [nodeRecordEncode, rlpList, List.length_append]
  omega

theorem neighboursEncode_16v4_ge (n : Neighbours) (hwf : n.wf = true)
    (hlen : n.nodes.length = 16) (hall : ∀ r ∈ n.nodes, r.address.isIpv4 = true) :
    1203 ≤ (neighboursEncode n).length := by
  simp only [Neighbours.wf, Bool.and_eq_true, decide_eq_true_eq] at hwf
  obtain ⟨⟨hrecs, -⟩, -⟩ := hwf
  have hflat := flatten_map_length_ge n.nodes nodeRecordEncode 75 (fun r hr =>
    (nodeRecordEncode_v4_bounds r (List.all_eq_true.mp hrecs r hr) (hall r hr)).1)
  rw [hlen] at hflat
  have h1 := rlpList_length_ge ((n.nodes.map nodeRecordEncode).flatten)
  have h2 := rlpNat_length_pos n.expire
  have h3 := rlpList_length_ge (neighboursPayload n)
  have hpay : (neighboursPayload n).length =
      (rlpList ((n.nodes.map nodeRecordEncode).flatten)).length +
        (rlpNat n.expire).length := by
    simp [neighboursPayload, encodeVec]
  simp only [neighboursEncode]
  omega

theorem neighboursEncode_12_le (n : Neighbours) (hwf : n.wf = true)
    (hlen : n.nodes.length = 12) :
    (neighboursEncode n).length ≤ 1107 := by
  have h2562 : (256 : Nat) ^ 2 = 65536 := by norm_num
  simp only [Neighbours.wf, Bool.and_eq_true, decide_eq_true_eq] at hwf
  obtain ⟨⟨hrecs, hex⟩, -⟩ := hwf
  have hflat := flatten_map_length_le n.nodes nodeRecordEncode 91 (fun r hr =>
    nodeRecordEncode_le r (List.all_eq_true.mp hrecs r hr))
  rw [hlen] at hflat
  have h1 := lengthHeader_length_le 0xC0 ((n.nodes.map nodeRecordEncode).flatten).length 2
    (by omega)
  have hinner : (rlpList ((n.nodes.map nodeRecordEncode).flatten)).length ≤ 1095 := by
    simp only [rlpList, List.length_append]
    omega
  have hexl := u64_rlp_le n.expire hex
  have hpayload : (neighboursPayload n).length ≤ 1104 := by
    simp only [neighboursPayload, encodeVec, List.length_append]
    omega
  have houter := lengthHeader_length_le 0xC0 (neighboursPayload n).length 2 (by omega)
  simp only [neighboursEncode, rlpList, List.length_append]
  omega

/-! ## A concrete crypto model and concrete packets for evaluation -/

/-- A computable instantiation of the crypto abstraction: the digest tracks
the input length modulo 256 (so appending a byte always changes it), and
signing and recovery run over trivial key types. It satisfies every
interface fact and makes the envelope executable end to end. -/
def toySecp : Secp where
  SecretKey := Unit
  PubKey := Unit
  keccak s := s.length % 256 :: List.replicate 31 0
  keccak_len := by
    intro s
    simp
  keccak_snoc_zero_ne := by
    intro s h
    simp only [List.length_append, List.length_cons, List.length_nil, List.cons.injEq,
      and_true] at h
    omega
  sign _ _ := (List.replicate 64 1, 0)
  sign_sig_len := by
    intro d k
    simp
  sign_rec_lt := by
    intro d k
    simp
  fromCompact s := s.length == 64
  sign_fromCompact := by
    intro d k
    simp
  recover _ s rid := if s.length = 64 ∧ rid < 4 then some () else none
  pubkeyOf _ := ()
  serializeUncompressed _ := 4 :: List.replicate 64 0
  uncompressed_len := by
    intro p
    simp
  recover_sign := by
    intro d k
    simp

def pingMsg0 : Ping :=
  { from_ := { address := .v4 [127, 0, 0, 1], udp_port := 1, tcp_port := 1 },
    to_ := { address := .v4 [10, 0, 0, 2], udp_port := 2, tcp_port := 2 },
    expire := 0, enr_sq := none }

def pingMsg1 : Ping :=
  { pingMsg0 with enr_sq := some 7 }

def pongMsg0 : Pong :=
  { to_ := { address := .v4 [10, 0, 0, 2], udp_port := 2, tcp_port := 2 },
    echo := List.replicate 32 0, expire := 0, enr_sq := none }

def nodeV4 : NodeRecord :=
  { address := .v4 [127, 0, 0, 1], udp_port := 1, tcp_port := 1,
    id := List.replicate 64 0 }

def nodeV6 : NodeRecord :=
  { address := .v6 (List.replicate 16 0), udp_port := 1, tcp_port := 1,
    id := List.replicate 64 0 }

def nbr16v4 : Neighbours := { nodes := List.replicate 16 nodeV4, expire := 0 }

def nbr12v6 : Neighbours := { nodes := List.replicate 12 nodeV6, expire := 0 }

def nbrMixed : Neighbours := { nodes := nodeV4 :: List.replicate 11 nodeV6, expire := 0 }

def enr0 : Enr := { signature := List.replicate 64 0, seq := 1, pairs := [([107], [1])] }

def enrResp0 : EnrResponse := { request_hash := List.replicate 32 0, enr := enr0 }

/-- An `EnrResponse` buffer whose outer list header declares two more
payload bytes than its two fields actually consume. -/
def c4buf : List Nat :=
  lengthHeader 0xC0 ((enrResponsePayload enrResp0).length + 2) ++
    enrResponsePayload enrResp0 ++ [9, 9]

/-! ## Elimination of a successful decode -/

theorem decode_ok_elim (S : Secp) (packet : List Nat) (p : Packet)
    (h : Message.decode S packet = .ok p) :
    MIN_PACKET_SIZE ≤ packet.length ∧
    packet.take 32 = S.keccak (packet.drop 32) ∧
    p.hash = S.keccak (packet.drop 32) ∧
    ∃ rid pk, recIdFromI32 (packet.getD 96 0) = some rid ∧
      S.fromCompact ((packet.drop 32).take 64) = true ∧
      S.recover (S.keccak (packet.drop 97)) ((packet.drop 32).take 64) rid = some pk ∧
      p.node_id = (S.serializeUncompressed pk).drop 1 := by
  unfold Message.decode at h
  split at h
  · exact absurd h (by simp)
  · rename_i hlen
    split at h
    · exact absurd h (by simp)
    · rename_i hhash
      obtain ⟨hph, rid, pk, hri, hfc, hrec, hni⟩ := decodePayload_ok_elim S packet _ p h
      exact ⟨Nat.le_of_not_lt hlen, not_not.mp hhash, hph, rid, pk, hri, hfc, hrec, hni⟩

/-! ## The claims -/

/-- C1: decoding an encoded well-formed message succeeds, returns the same
message, and returns as `node_id` the 65-byte uncompressed public key of the
signing secret with its leading prefix byte removed. -/
theorem spec_C1 (S : Secp) (m : Message) (sk : S.SecretKey) (hwf : m.wf = true) :
    ∃ p : Packet, Message.decode S (Message.encode S m sk).1 = .ok p ∧
      p.msg = m ∧
      p.node_id = (S.serializeUncompressed (S.pubkeyOf sk)).drop 1 ∧
      (S.serializeUncompressed (S.pubkeyOf sk)).length = 65 :=
  ⟨_, encode_decode S m sk hwf, rfl, rfl, S.uncompressed_len _⟩

theorem spec_C1_witness :
    Message.wf (.ping pingMsg0) = true ∧
      ∃ p : Packet,
        Message.decode toySecp (Message.encode toySecp (.ping pingMsg0) ()).1 = .ok p ∧
        p.msg = .ping pingMsg0 ∧
        p.node_id = (toySecp.serializeUncompressed (toySecp.pubkeyOf ())).drop 1 ∧
        (toySecp.serializeUncompressed (toySecp.pubkeyOf ())).length = 65 :=
  ⟨by decide, spec_C1 toySecp (.ping pingMsg0) () (by decide)⟩

/-- C2: in `Message.encode` the ECDSA signature is computed over the keccak
digest of the type byte and RLP payload only (bytes 97..end), while the
envelope hash covers bytes 32..end; and on any packet `Message.decode`
accepts, the hash was verified over bytes 32.. and the key was recovered
against the digest of bytes 97.. with the signature at bytes 32..96. -/
theorem spec_C2 (S : Secp) (m : Message) (sk : S.SecretKey) :
    (Message.encode S m sk).1.take 32 =
      S.keccak ((Message.encode S m sk).1.drop 32) ∧
    ((Message.encode S m sk).1.drop 32).take 64 =
      (S.sign (S.keccak ((Message.encode S m sk).1.drop 97)) sk).1 ∧
    (Message.encode S m sk).1.drop 97 = m.typeByte :: m.body ∧
    (∀ (packet : List Nat) (p : Packet), Message.decode S packet = .ok p →
      packet.take 32 = S.keccak (packet.drop 32) ∧
      ∃ rid pk, recIdFromI32 (packet.getD 96 0) = some rid ∧
        S.recover (S.keccak (packet.drop 97)) ((packet.drop 32).take 64) rid = some pk) := by
  refine ⟨?_, ?_, encode_drop97 S m sk, ?_⟩
  · rw [encode_take32, encode_drop32]
  · rw [encode_sig64, encode_drop97]
  · intro packet p h
    obtain ⟨-, hh, -, rid, pk, hri, -, hrec, -⟩ := decode_ok_elim S packet p h
    exact ⟨hh, rid, pk, hri, hrec⟩

/-- C3 (amended): after the four required Ping fields, the optional
`enr_seq` is decoded exactly when unread bytes remain in the whole input
buffer (not merely within the declared list payload); bytes remaining inside
the declared payload are skipped silently, and consuming more than the
declared payload is a `ListLengthMismatch` error — symmetrically for Pong. -/
theorem spec_C3 :
    (∀ (version : Nat) (p : Ping) (s : Nat) (junk t : List Nat),
        version < 2 ^ 32 → p.wf = true → p.enr_sq = some s → junk.length < 2 ^ 32 →
        pingDecode (pingListBytes version p junk ++ t) = .ok (p, t)) ∧
    (∀ (version : Nat) (p : Ping), version < 2 ^ 32 → p.wf = true → p.enr_sq = none →
        pingDecode (pingListBytes version p []) = .ok (p, [])) ∧
    (∀ p : Ping, p.wf = true → p.enr_sq = none →
        pingDecode (pingEncode p ++ [1]) =
          .error (.listLengthMismatch (pingPayload p).length
            ((pingPayload p).length + 1))) ∧
    (∀ (p : Pong) (s : Nat) (junk t : List Nat),
        p.wf = true → p.enr_sq = some s → junk.length < 2 ^ 32 →
        pongDecode (pongListBytes p junk ++ t) = .ok (p, t)) ∧
    (∀ p : Pong, p.wf = true → p.enr_sq = none →
        pongDecode (pongListBytes p []) = .ok (p, [])) ∧
    (∀ p : Pong, p.wf = true → p.enr_sq = none →
        pongDecode (pongEncode p ++ [1]) =
          .error (.listLengthMismatch (pongPayload p).length
            ((pongPayload p).length + 1))) :=
  ⟨fun v p s junk t hv hw hs hj => pingDecode_some v p s junk t hv hw hs hj,
   fun v p hv hw hn => pingDecode_none v p hv hw hn,
   fun p hw hn => pingDecode_none_trailing p hw hn,
   fun p s junk t hw hs hj => pongDecode_some p s junk t hw hs hj,
   fun p hw hn => pongDecode_none p hw hn,
   fun p hw hn => pongDecode_none_trailing p hw hn⟩

/-- C3 counterexample: a Ping with `enr_seq` absent followed by one byte
after the end of its list — no unread bytes remain within the declared list
payload, so the claim predicts a successful decode leaving the byte in the
buffer, but the decoder keys on the whole remaining buffer, reads the byte
as `enr_seq`, overruns the declared payload and fails. -/
theorem spec_C3_cex :
    pingDecode (pingEncode pingMsg0 ++ [1]) ≠ .ok (pingMsg0, [1]) ∧
    pingDecode (pingEncode pingMsg0 ++ [1]) =
      .error (.listLengthMismatch 18 19) := by
  exact ⟨by decide, by decide⟩

/-- C4: `enrResponseDecode` performs no consumed-equals-payload-length check
on the outer list: whenever the header parses as a list and the two fields
decode, the whole decode succeeds, the declared length notwithstanding. -/
theorem spec_C4 (buf b0 b1 b2 : List Nat) (h : Header) (hash : List Nat) (enr : Enr)
    (hh : Header.decode buf = .ok (h, b0)) (hl : h.list = true)
    (hrh : decodeFixed 32 b0 = .ok (hash, b1))
    (henr : enrWrapperDecode b1 = .ok (enr, b2)) :
    enrResponseDecode buf = .ok ({ request_hash := hash, enr := enr }, b2) := by
  simp only [enrResponseDecode, hh, hl, hrh, henr, Bind.bind, Except.bind, pure,
    Except.pure, Bool.not_true, Bool.false_eq_true, if_false, not_true]

theorem spec_C4_witness :
    Header.decode c4buf =
      .ok ({ list := true, payload_length := 106 }, enrResponsePayload enrResp0 ++ [9, 9]) ∧
    decodeFixed 32 (enrResponsePayload enrResp0 ++ [9, 9]) =
      .ok (List.replicate 32 0, enrWrapperEncode enr0 ++ [9, 9]) ∧
    enrWrapperDecode (enrWrapperEncode enr0 ++ [9, 9]) = .ok (enr0, [9, 9]) ∧
    enrResponseDecode c4buf = .ok (enrResp0, [9, 9]) :=
  ⟨by decide, by decide, by decide,
    spec_C4 c4buf (enrResponsePayload enrResp0 ++ [9, 9])
      (enrWrapperEncode enr0 ++ [9, 9]) [9, 9]
      { list := true, payload_length := 106 } (List.replicate 32 0) enr0
      (by decide) rfl (by decide) (by decide)⟩

/-- C5: the hash returned as the second component of `Message.encode` equals
the `hash` field of the packet `Message.decode` returns on those bytes, and
both equal the keccak digest of the encoded bytes from offset 32 on. -/
theorem spec_C5 (S : Secp) (m : Message) (sk : S.SecretKey) (hwf : m.wf = true) :
    ∃ p : Packet, Message.decode S (Message.encode S m sk).1 = .ok p ∧
      p.hash = (Message.encode S m sk).2 ∧
      (Message.encode S m sk).2 = S.keccak ((Message.encode S m sk).1.drop 32) :=
  ⟨_, encode_decode S m sk hwf, rfl, by
    rw [encode_drop32]
    rfl⟩

theorem spec_C5_witness :
    Message.wf (.ping pingMsg1) = true ∧
      ∃ p : Packet,
        Message.decode toySecp (Message.encode toySecp (.ping pingMsg1) ()).1 = .ok p ∧
        p.hash = (Message.encode toySecp (.ping pingMsg1) ()).2 ∧
        (Message.encode toySecp (.ping pingMsg1) ()).2 =
          toySecp.keccak ((Message.encode toySecp (.ping pingMsg1) ()).1.drop 32) :=
  ⟨by decide, spec_C5 toySecp (.ping pingMsg1) () (by decide)⟩

/-- C6: for a well-formed ENR (keys strictly ascending), the wrapper decoder
inverts the wrapper encoder and leaves the cursor right past the list; the
encoding is the list header over the declared payload length followed by
signature, seq and the key/value pairs with raw values, and the declared
payload length equals the emitted content's length. -/
theorem spec_C6 (e : Enr) (t : List Nat) (hwf : e.wf = true) :
    enrWrapperDecode (enrWrapperEncode e ++ t) = .ok (e, t) ∧
    enrWrapperEncode e = lengthHeader 0xC0 (enrPayloadLength e) ++ enrContent e ∧
    (enrContent e).length = enrPayloadLength e ∧
    pairsSorted e.pairs = true := by
  refine ⟨enrWrapperDecode_rt e t hwf, rfl, enrContent_length e, ?_⟩
  simp only [Enr.wf, Bool.and_eq_true] at hwf
  exact hwf.1.2

theorem spec_C6_witness :
    Enr.wf enr0 = true ∧
      (enrWrapperDecode (enrWrapperEncode enr0 ++ [5]) = .ok (enr0, [5]) ∧
       enrWrapperEncode enr0 = lengthHeader 0xC0 (enrPayloadLength enr0) ++ enrContent enr0 ∧
       (enrContent enr0).length = enrPayloadLength enr0 ∧
       pairsSorted enr0.pairs = true) :=
  ⟨by decide, spec_C6 enr0 [5] (by decide)⟩

/-- C7: over every choice of well-formed field values, a Neighbours packet
with 16 IPv4 records always exceeds `MAX_PACKET_SIZE`; one with
`SAFE_MAX_DATAGRAM_NEIGHBOUR_RECORDS` IPv6 records always fits; and at that
count replacing one IPv6 record by an IPv4 record still fits. -/
theorem spec_C7 (S : Secp) :
    (∀ (n : Neighbours) (sk : S.SecretKey), n.wf = true → n.nodes.length = 16 →
        (∀ r ∈ n.nodes, r.address.isIpv4 = true) →
        MAX_PACKET_SIZE < (Message.encode S (.neighbours n) sk).1.length) ∧
    (∀ (n : Neighbours) (sk : S.SecretKey), n.wf = true →
        n.nodes.length = SAFE_MAX_DATAGRAM_NEIGHBOUR_RECORDS →
        (∀ r ∈ n.nodes, r.address.isIpv4 = false) →
        (Message.encode S (.neighbours n) sk).1.length ≤ MAX_PACKET_SIZE) ∧
    (∀ (n : Neighbours) (sk : S.SecretKey) (r0 : NodeRecord), n.wf = true →
        n.nodes.length = SAFE_MAX_DATAGRAM_NEIGHBOUR_RECORDS →
        r0 ∈ n.nodes → r0.address.isIpv4 = true →
        (∀ r ∈ n.nodes, r ≠ r0 → r.address.isIpv4 = false) →
        (Message.encode S (.neighbours n) sk).1.length ≤ MAX_PACKET_SIZE) := by
  refine ⟨?_, ?_, ?_⟩
  · intro n sk hwf hlen hall
    have hb := neighboursEncode_16v4_ge n hwf hlen hall
    rw [encode_length]
    show MAX_PACKET_SIZE < 98 + (neighboursEncode n).length
    simp only [MAX_PACKET_SIZE]
    omega
  · intro n sk hwf hlen hall
    have hb := neighboursEncode_12_le n hwf
      (by simpa [SAFE_MAX_DATAGRAM_NEIGHBOUR_RECORDS] using hlen)
    rw [encode_length]
    show 98 + (neighboursEncode n).length ≤ MAX_PACKET_SIZE
    simp only [MAX_PACKET_SIZE]
    omega
  · intro n sk r0 hwf hlen hr0 h4 hrest
    have hb := neighboursEncode_12_le n hwf
      (by simpa [SAFE_MAX_DATAGRAM_NEIGHBOUR_RECORDS] using hlen)
    rw [encode_length]
    show 98 + (neighboursEncode n).length ≤ MAX_PACKET_SIZE
    simp only [MAX_PACKET_SIZE]
    omega

theorem spec_C7_witness :
    Neighbours.wf nbr16v4 = true ∧ nbr16v4.nodes.length = 16 ∧
    Neighbours.wf nbr12v6 = true ∧
      nbr12v6.nodes.length = SAFE_MAX_DATAGRAM_NEIGHBOUR_RECORDS ∧
    MAX_PACKET_SIZE <
      (Message.encode toySecp (.neighbours nbr16v4) ()).1.length ∧
    (Message.encode toySecp (.neighbours nbr12v6) ()).1.length ≤ MAX_PACKET_SIZE ∧
    (Message.encode toySecp (.neighbours nbrMixed) ()).1.length ≤ MAX_PACKET_SIZE :=
  ⟨by decide, by decide, by decide, by decide,
   (spec_C7 toySecp).1 nbr16v4 () (by decide) (by decide) (by decide),
   (spec_C7 toySecp).2.1 nbr12v6 () (by decide) (by decide) (by decide),
   (spec_C7 toySecp).2.2 nbrMixed () nodeV4 (by decide) (by decide) (by decide)
     (by decide) (by decide)⟩

/-- C8: on inputs of at least the minimum length, `Message.decode` returns
`HashMismatch` exactly when the keccak digest of bytes 32.. differs from the
first 32 bytes; appending a single zero byte to any encoded envelope always
triggers it. -/
theorem spec_C8 (S : Secp) :
    (∀ packet : List Nat, MIN_PACKET_SIZE ≤ packet.length →
        (Message.decode S packet = .error .hashMismatch ↔
          S.keccak (packet.drop 32) ≠ packet.take 32)) ∧
    (∀ (m : Message) (sk : S.SecretKey),
        Message.decode S ((Message.encode S m sk).1 ++ [0]) = .error .hashMismatch) := by
  constructor
  · intro packet hlen
    rw [decode_hashMismatch_iff S packet hlen]
    exact ne_comm
  · intro m sk
    have hlen : MIN_PACKET_SIZE ≤ ((Message.encode S m sk).1 ++ [0]).length := by
      have := encode_length S m sk
      simp only [List.length_append, List.length_cons, List.length_nil, MIN_PACKET_SIZE] at *
      omega
    rw [decode_hashMismatch_iff S _ hlen]
    have hl32 : 32 ≤ (Message.encode S m sk).1.length := by
      have := encode_length S m sk
      omega
    have ht : ((Message.encode S m sk).1 ++ [0]).take 32 =
        (Message.encode S m sk).1.take 32 :=
      List.take_append_of_le_length hl32
    have hd : ((Message.encode S m sk).1 ++ [0]).drop 32 =
        (Message.encode S m sk).1.drop 32 ++ [0] :=
      List.drop_append_of_le_length hl32
    rw [ht, hd, encode_take32, encode_drop32]
    intro hc
    exact S.keccak_snoc_zero_ne (sigBytes S m sk) hc.symm

theorem spec_C8_witness :
    Message.decode toySecp
        ((Message.encode toySecp (.ping pingMsg0) ()).1 ++ [0]) =
      .error .hashMismatch :=
  (spec_C8 toySecp).2 (.ping pingMsg0) ()

/-- C9: the leading version word of a Ping is not validated — for every u32
value in that position the decode result is the same and carries no trace of
it — while the encoder always writes version 4 first. -/
theorem spec_C9 :
    (∀ (version : Nat) (p : Ping) (s : Nat) (junk t : List Nat),
        version < 2 ^ 32 → p.wf = true → p.enr_sq = some s → junk.length < 2 ^ 32 →
        pingDecode (pingListBytes version p junk ++ t) = .ok (p, t)) ∧
    (∀ (version : Nat) (p : Ping), version < 2 ^ 32 → p.wf = true → p.enr_sq = none →
        pingDecode (pingListBytes version p []) = .ok (p, [])) ∧
    (∀ p : Ping, pingEncode p = pingListBytes 4 p []) :=
  ⟨fun v p s junk t hv hw hs hj => pingDecode_some v p s junk t hv hw hs hj,
   fun v p hv hw hn => pingDecode_none v p hv hw hn,
   fun p => pingEncode_eq_listBytes p⟩

theorem spec_C9_witness :
    pingDecode (pingListBytes 123456 pingMsg1 [] ++ []) = .ok (pingMsg1, []) :=
  spec_C9.1 123456 pingMsg1 7 [] [] (by decide) (by decide) (by decide) (by decide)

/-- C10: the decode pipeline checks in order — length, hash, recovery id,
signature parse, key recovery, then type dispatch — so with the hash
verified, a bad recovery id, unparsable signature or failed recovery yields
the corresponding Secp256k1 error whatever the type byte holds, and
`UnknownMessage` is only ever returned once key recovery has succeeded. -/
theorem spec_C10 (S : Secp) :
    (∀ packet : List Nat, MIN_PACKET_SIZE ≤ packet.length →
        packet.take 32 = S.keccak (packet.drop 32) →
        recIdFromI32 (packet.getD 96 0) = none →
        Message.decode S packet = .error (.secp256k1 .invalidRecoveryId)) ∧
    (∀ (packet : List Nat) (rid : Nat), MIN_PACKET_SIZE ≤ packet.length →
        packet.take 32 = S.keccak (packet.drop 32) →
        recIdFromI32 (packet.getD 96 0) = some rid →
        S.fromCompact ((packet.drop 32).take 64) = false →
        Message.decode S packet = .error (.secp256k1 .invalidSignature)) ∧
    (∀ (packet : List Nat) (rid : Nat), MIN_PACKET_SIZE ≤ packet.length →
        packet.take 32 = S.keccak (packet.drop 32) →
        recIdFromI32 (packet.getD 96 0) = some rid →
        S.fromCompact ((packet.drop 32).take 64) = true →
        S.recover (S.keccak (packet.drop 97)) ((packet.drop 32).take 64) rid = none →
        Message.decode S packet = .error (.secp256k1 .recoveryFailed)) ∧
    (∀ (packet : List Nat) (b : Nat),
        Message.decode S packet = .error (.unknownMessage b) →
        b = packet.getD 97 0 ∧ MessageId.from_u8 b = .error b ∧
        ∃ rid pk, recIdFromI32 (packet.getD 96 0) = some rid ∧
          S.fromCompact ((packet.drop 32).take 64) = true ∧
          S.recover (S.keccak (packet.drop 97)) ((packet.drop 32).take 64) rid = some pk) := by
  refine ⟨?_, ?_, ?_, ?_⟩
  · intro packet hlen hhash hri
    rw [decode_eq_decodePayload S packet hlen hhash]
    exact decodePayload_invalidRecId S packet _ hri
  · intro packet rid hlen hhash hri hfc
    rw [decode_eq_decodePayload S packet hlen hhash]
    exact decodePayload_invalidSig S packet _ rid hri hfc
  · intro packet rid hlen hhash hri hfc hrec
    rw [decode_eq_decodePayload S packet hlen hhash]
    exact decodePayload_recoveryFailed S packet _ rid hri hfc hrec
  · intro packet b h
    unfold Message.decode at h
    split at h
    · exact absurd h (by simp)
    · split at h
      · exact absurd h (by simp)
      · exact decodePayload_unknown_elim S packet _ b h

def badRecPacket : List Nat := (66 :: List.replicate 31 0) ++ List.replicate 66 9

theorem spec_C10_witness :
    Message.decode toySecp badRecPacket = .error (.secp256k1 .invalidRecoveryId) :=
  (spec_C10 toySecp).1 badRecPacket (by decide) (by decide) (by decide)

end Discv4
